import Mathlib

/-!
Verification of the batch-sharding component of `src/accelerate/data_loader.py`.

The embedding is a shallow one: batches of sample indices are `List Nat`, an
upstream pass of a batch sampler is a `List (List Nat)`, and the generator
methods of `BatchSamplerShard` become pure functions returning the list of
batches they yield.  Python's `l[a:b]` slicing is `pySlice`, the
`while len(l) < target: l += l` doubling loops are `tile`, and the trailing
`while` loop of `_iter_with_no_split` is `cycleLoop`.
-/

namespace Accelerate

/-- Python slice `l[a:b]` on a list (clamping, like Python). -/
def pySlice (l : List Nat) (a b : Nat) : List Nat :=
  (l.drop a).take (b - a)

/-- Fuel-driven unfolding of the doubling loop `while len(l) < target: l += l`.
Each step at least doubles a nonempty list, so `target` steps of fuel are far
more than enough to reach any `target`; the guard makes surplus fuel inert. -/
def tileFuel : Nat → List Nat → Nat → List Nat
  | 0, l, _ => l
  | fuel + 1, l, target => if l.length < target then tileFuel fuel (l ++ l) target else l

/-- The doubling loop `while len(l) < target: l += l` of
`BatchSamplerShard._iter_with_split` (line 87) and `_iter_with_no_split`
(line 114).  In the source this loop is only ever reached with a nonempty
`l` (it is guarded by `len(initial_data) > 0`); on an empty list — where the
source loop would not terminate — we return `[]`. -/
def tile (l : List Nat) (target : Nat) : List Nat :=
  if l = [] then [] else tileFuel target l target

/-- The loop state of `BatchSamplerShard._iter_with_no_split`:
`initial_data`, `batch_to_yield`, and the batches yielded so far. -/
structure NoSplitState where
  initialData : List Nat
  batchToYield : List Nat
  yields : List (List Nat)

/-- One iteration of the `for idx, batch in enumerate(self.batch_sampler)` loop
of `_iter_with_no_split` (lines 95-105): accumulate `initial_data` over the
first `num_processes` batches when `drop_last` is false, remember the batch at
positions congruent to `process_index`, and emit it once the last position of
its round-robin group has arrived with a full batch. -/
def noSplitStep (np bs pi : Nat) (dropLast : Bool) (idx : Nat) (batch : List Nat)
    (s : NoSplitState) : NoSplitState :=
  let initData := if dropLast = false ∧ idx < np then s.initialData ++ batch else s.initialData
  let toYield := if idx % np = pi then batch else s.batchToYield
  if idx % np = np - 1 ∧ batch.length = bs then
    ⟨initData, [], s.yields ++ [toYield]⟩
  else
    ⟨initData, toYield, s.yields⟩

/-- The whole `for` loop of `_iter_with_no_split`, starting at index `idx`. -/
def noSplitLoop (np bs pi : Nat) (dropLast : Bool) : Nat → NoSplitState → List (List Nat) → NoSplitState
  | _, s, [] => s
  | idx, s, b :: rest => noSplitLoop np bs pi dropLast (idx + 1) (noSplitStep np bs pi dropLast idx b s) rest

/-- The trailing `while idx % self.num_processes != 0 or len(batch) > 0` loop of
`_iter_with_no_split` (lines 123-131), which rebuilds the missing batches of the
final round from the tiled `initial_data` buffer.  The loop is fuel-driven: it
provably runs at most `num_processes` iterations (after the first step the
residual batch is empty and the index climbs to the next multiple of
`num_processes`), and callers pass `num_processes + 1` fuel, so the guard — a
faithful copy of the source's — always terminates it before fuel runs out. -/
def cycleLoop (np bs pi : Nat) (initData : List Nat) :
    Nat → Nat → Nat → List Nat → List (List Nat)
  | 0, _, _, _ => []
  | fuel + 1, idx, cycleIndex, batch =>
    if idx % np = 0 ∧ batch = [] then []
    else
      let endIndex := cycleIndex + bs - batch.length
      let newBatch := batch ++ pySlice initData cycleIndex endIndex
      (if idx % np = pi then [newBatch] else []) ++
        cycleLoop np bs pi initData fuel (idx + 1) endIndex []

/-- Everything after the `for` loop of `_iter_with_no_split` (lines 107-131):
yield the held batch if it is full, tile `initial_data` to at least
`num_processes * batch_size`, skip past the last batch if it was full, then
cycle through the buffer until the pass count is a multiple of
`num_processes`.  `lastIdx` and `lastBatch` are the values of the loop
variables `idx` and `batch` after the `for` loop. -/
def noSplitTail (np bs pi : Nat) (dropLast : Bool)
    (s : NoSplitState) (lastIdx : Nat) (lastBatch : List Nat) : List (List Nat) :=
  if dropLast = false ∧ 0 < s.initialData.length then
    (if s.batchToYield.length = bs then [s.batchToYield] else []) ++
      (let buf := tile s.initialData (np * bs)
       if lastBatch.length = bs then
         cycleLoop np bs pi buf (np + 1) (lastIdx + 1) 0 []
       else
         cycleLoop np bs pi buf (np + 1) lastIdx 0 lastBatch)
  else []

/-- `BatchSamplerShard._iter_with_no_split` (lines 92-131) as the list of
batches it yields for one pass over `batches`.  When `batches` is empty the
`for` loop body never runs, `initial_data` stays empty, and the tail guard
`len(initial_data) > 0` fails, so nothing is yielded. -/
def iterWithNoSplit (np bs pi : Nat) (dropLast : Bool) (batches : List (List Nat)) : List (List Nat) :=
  match batches with
  | [] => []
  | _ :: _ =>
    let s := noSplitLoop np bs pi dropLast 0 ⟨[], [], []⟩ batches
    s.yields ++ noSplitTail np bs pi dropLast s (batches.length - 1) (batches.getLastD [])

/-- `BatchSamplerShard._iter_with_split` (lines 74-90) as the list of batches
it yields for one pass over `batches`.  Full batches are sliced immediately;
if `drop_last` is false and the final batch is short, the first batch of the
pass is tiled to at least `batch_size`, appended after the short batch, and the
result is sliced the same way. -/
def iterWithSplit (np bs pi : Nat) (dropLast : Bool) (batches : List (List Nat)) : List (List Nat) :=
  match batches with
  | [] => []
  | b0 :: _ =>
    let batchLength := bs / np
    let main := batches.filterMap fun b =>
      if b.length = bs then some (pySlice b (batchLength * pi) (batchLength * (pi + 1))) else none
    let lastBatch := batches.getLastD []
    if dropLast = false ∧ 0 < b0.length ∧ lastBatch.length < bs then
      main ++ [pySlice (lastBatch ++ tile b0 bs) (batchLength * pi) (batchLength * (pi + 1))]
    else main

/-- `BatchSamplerShard.__iter__` (line 71-72): dispatch on `split_batches`. -/
def iterShard (np bs pi : Nat) (split dropLast : Bool) (batches : List (List Nat)) : List (List Nat) :=
  if split then iterWithSplit np bs pi dropLast batches else iterWithNoSplit np bs pi dropLast batches

/-- `BatchSamplerShard.__len__` (lines 65-69): `upstreamLen` is
`len(self.batch_sampler)`. -/
def lenBatchSamplerShard (np upstreamLen : Nat) (dropLast : Bool) : Nat :=
  if upstreamLen % np = 0 then upstreamLen / np
  else if dropLast then upstreamLen / np else upstreamLen / np + 1

/-- The configuration recorded by `BatchSamplerShard.__init__` (lines 58-63). -/
structure BatchSamplerShard where
  numProcesses : Nat
  processIndex : Nat
  splitBatches : Bool
  batchSize : Nat
  dropLast : Bool

/-- `BatchSamplerShard.__init__` (lines 46-63): raises a `ValueError` when
`split_batches` is set and the batch size is not a round multiple of the
number of processes, otherwise records the configuration. -/
def initBatchSamplerShard (bs : Nat) (dropLast : Bool) (np pi : Nat) (split : Bool) :
    Except String BatchSamplerShard :=
  if split = true ∧ bs % np ≠ 0 then
    .error "To use BatchSamplerShard in split_batches mode, the batch size needs to be a round multiple of the number of processes."
  else
    .ok ⟨np, pi, split, bs, dropLast⟩

/-- The eager sanity check of `prepare_data_loader` (lines 202-207), performed
before any sharding object is constructed. -/
def prepareDataLoaderCheck (bs np : Nat) (split : Bool) : Except String Unit :=
  if split = true ∧ bs % np ≠ 0 then
    .error "Using split_batches requires that the batch size be a round multiple of the number of processes."
  else
    .ok ()

/-- The batch-sampler selection of `prepare_data_loader` (lines 209-219) seen
through one pass: when `num_processes` is 1 the upstream batch sampler is used
unchanged (no `BatchSamplerShard` is constructed), otherwise the pass goes
through the shard. -/
def preparedBatchSource (np bs pi : Nat) (split dropLast : Bool) (batches : List (List Nat)) : List (List Nat) :=
  if np = 1 then batches else iterShard np bs pi split dropLast batches

/-- `DataLoaderShard.__iter__` (lines 139-145): each batch pulled from the
batch sampler is yielded unchanged when no device is configured, and sent to
the device otherwise (`send_to_device` is abstracted as a parameter). -/
def dataLoaderShardStream (sendToDevice : List Nat → List Nat) (device : Option Unit)
    (batches : List (List Nat)) : List (List Nat) :=
  batches.map fun b => match device with | none => b | some _ => sendToDevice b

/-- Modelled from the spec: "batch at pass-position `p` belongs to worker
`p mod worker_count`" — the round-robin selection of whole batches, used to
compare the code's behaviour with the spec's words. -/
def roundRobinSelect (np pi : Nat) : Nat → List (List Nat) → List (List Nat)
  | _, [] => []
  | idx, b :: rest => (if idx % np = pi then [b] else []) ++ roundRobinSelect np pi (idx + 1) rest

/-! ## Basic lemmas about slicing and tiling -/

theorem pySlice_length (l : List Nat) (a b : Nat) (h : b ≤ l.length) :
    (pySlice l a b).length = b - a := by
  simp only [pySlice, List.length_take, List.length_drop]
  omega

theorem tileFuel_length : ∀ (fuel : Nat) (l : List Nat) (target : Nat),
    l ≠ [] → target ≤ fuel + l.length → target ≤ (tileFuel fuel l target).length
  | 0, l, target, _, h => by simpa [tileFuel] using h
  | fuel + 1, l, target, hne, h => by
    have hlen : 1 ≤ l.length := List.length_pos.mpr hne
    simp only [tileFuel]
    by_cases hlt : l.length < target
    · simp only [hlt, if_true]
      refine tileFuel_length fuel (l ++ l) target (by simp [hne]) ?_
      simp only [List.length_append]
      omega
    · simp only [hlt, if_false]
      omega

theorem tile_length (l : List Nat) (target : Nat) (hne : l ≠ []) :
    target ≤ (tile l target).length := by
  simp only [tile, hne, if_false]
  exact tileFuel_length target l target hne (by omega)

theorem tile_of_le (l : List Nat) (target : Nat) (h : target ≤ l.length) :
    tile l target = l := by
  rcases l with _ | ⟨x, xs⟩
  · rfl
  · cases target with
    | zero => simp [tile, tileFuel]
    | succ t =>
      simp only [tile, if_neg (List.cons_ne_nil x xs), tileFuel]
      rw [if_neg (by omega)]

/-- The slice a full batch hands to worker `pi` has exactly
`batch_size / num_processes` elements. -/
theorem pySlice_full_length (np bs pi : Nat) (b : List Nat)
    (hb : bs ≤ b.length) (hdvd : np ∣ bs) (hpi : pi < np) :
    (pySlice b (bs / np * pi) (bs / np * (pi + 1))).length = bs / np := by
  have hmul : bs / np * np = bs := Nat.div_mul_cancel hdvd
  have hle : bs / np * (pi + 1) ≤ bs := by
    calc bs / np * (pi + 1) ≤ bs / np * np := Nat.mul_le_mul_left _ hpi
    _ = bs := hmul
  rw [pySlice_length b _ _ (le_trans hle hb), Nat.mul_succ, Nat.add_sub_cancel_left]

theorem getLastD_append_singleton (A : List (List Nat)) (x d : List Nat) :
    (A ++ [x]).getLastD d = x := by
  induction A with
  | nil => rfl
  | cons a A ih =>
    rcases A with _ | ⟨b, B⟩
    · rfl
    · simpa using ih

theorem getLastD_mem (B : List (List Nat)) (d : List Nat) (h : B ≠ []) :
    B.getLastD d ∈ B := by
  rw [List.getLastD_eq_getLast?, List.getLast?_eq_getLast B h, Option.getD_some]
  exact List.getLast_mem h

/-- `filterMap` over a list of full batches keeps every batch. -/
theorem filterMap_full (np bs pi : Nat) (F : List (List Nat))
    (hF : ∀ b ∈ F, b.length = bs) :
    (F.filterMap fun b =>
        if b.length = bs then some (pySlice b (bs / np * pi) (bs / np * (pi + 1))) else none)
      = F.map fun b => pySlice b (bs / np * pi) (bs / np * (pi + 1)) := by
  induction F with
  | nil => rfl
  | cons f F ih =>
    have hf : f.length = bs := hF f (List.mem_cons_self f F)
    rw [List.filterMap_cons, if_pos hf, List.map_cons,
      ih fun b hb => hF b (List.mem_cons_of_mem f hb)]

/-- Concatenating the first `k` worker slices of a batch rebuilds its prefix. -/
theorem join_slices_take (bl : Nat) (b : List Nat) :
    ∀ k : Nat, ((List.range k).map fun i => pySlice b (bl * i) (bl * (i + 1))).flatten
      = b.take (bl * k)
  | 0 => by simp
  | k + 1 => by
    rw [List.range_succ, List.map_append, List.flatten_append, join_slices_take bl b k]
    have hslice : pySlice b (bl * k) (bl * (k + 1)) = (b.drop (bl * k)).take bl := by
      simp only [pySlice, Nat.mul_succ, Nat.add_sub_cancel_left]
    simp only [List.map_cons, List.map_nil, List.flatten_cons, List.flatten_nil,
      List.append_nil, hslice]
    rw [Nat.mul_succ]
    exact (List.take_add b (bl * k) bl).symm

/-- Unfolding of `iterWithSplit` on a nonempty pass, keeping the source's
guard intact. -/
theorem iterWithSplit_cons (np bs pi : Nat) (d : Bool) (b0 : List Nat) (rest : List (List Nat)) :
    iterWithSplit np bs pi d (b0 :: rest)
      = (if d = false ∧ 0 < b0.length ∧ (((b0 :: rest).getLastD [] : List Nat)).length < bs then
          ((b0 :: rest).filterMap fun b =>
            if b.length = bs then some (pySlice b (bs / np * pi) (bs / np * (pi + 1))) else none)
            ++ [pySlice ((b0 :: rest).getLastD [] ++ tile b0 bs)
                  (bs / np * pi) (bs / np * (pi + 1))]
        else
          (b0 :: rest).filterMap fun b =>
            if b.length = bs then some (pySlice b (bs / np * pi) (bs / np * (pi + 1))) else none) :=
  rfl

/-! ## The main loop of `_iter_with_no_split` -/

theorem getLastD_cons_ne (b d d' : List Nat) (P : List (List Nat)) (h : P ≠ []) :
    (b :: P).getLastD d = P.getLastD d' := by
  rcases P with _ | ⟨p, P'⟩
  · exact absurd rfl h
  · rw [List.getLastD_eq_getLast?, List.getLastD_eq_getLast?, List.getLast?_cons_cons,
      List.getLast?_eq_getLast (p :: P') (List.cons_ne_nil p P'), Option.getD_some,
      Option.getD_some]

theorem getLastD_append_ne (A : List (List Nat)) (P : List (List Nat)) (d : List Nat)
    (h : P ≠ []) : (A ++ P).getLastD d = P.getLastD d := by
  induction A with
  | nil => rfl
  | cons a A ih =>
    rw [List.cons_append, getLastD_cons_ne a d d (A ++ P) (by simp [h]), ih]

theorem noSplitLoop_append (np bs pi : Nat) (d : Bool) :
    ∀ (l₁ l₂ : List (List Nat)) (idx : Nat) (s : NoSplitState),
    noSplitLoop np bs pi d idx s (l₁ ++ l₂)
      = noSplitLoop np bs pi d (idx + l₁.length) (noSplitLoop np bs pi d idx s l₁) l₂
  | [], l₂, idx, s => by simp [noSplitLoop]
  | b :: l₁, l₂, idx, s => by
    have harith : idx + (b :: l₁).length = idx + 1 + l₁.length := by
      simp only [List.length_cons]
      omega
    simp only [List.cons_append, noSplitLoop, harith]
    exact noSplitLoop_append np bs pi d l₁ l₂ (idx + 1) _

/-- Running the loop over a tail segment of fewer batches than would complete
the current round-robin group (or completing it with a short batch) yields
nothing: the batches are only held. -/
theorem noSplitLoop_shortRun (np bs pi : Nat) (d : Bool) (hnp : 0 < np) :
    ∀ (P : List (List Nat)) (idx : Nat) (s : NoSplitState),
    idx % np + P.length ≤ np →
    (∀ t, t + 1 < P.length → (P.getD t []).length = bs) →
    (idx % np + P.length = np → P = [] ∨ (P.getLastD []).length ≠ bs) →
    noSplitLoop np bs pi d idx s P
      = ⟨s.initialData ++ (if d = false ∧ idx < np then P.flatten else []),
         if idx % np ≤ pi ∧ pi < idx % np + P.length then P.getD (pi - idx % np) []
         else s.batchToYield,
         s.yields⟩
  | [], idx, s, _, _, _ => by
    simp only [noSplitLoop, List.flatten_nil, ite_self, List.append_nil, List.length_nil]
    rw [if_neg (by omega)]
  | b :: P', idx, s, hlen, hfull, hlast => by
    have hj : idx % np < np := Nat.mod_lt idx hnp
    simp only [List.length_cons] at hlen
    have hcond : ¬ (idx % np = np - 1 ∧ b.length = bs) := by
      rintro ⟨h1, h2⟩
      have hP0 : P'.length = 0 := by omega
      rcases hlast (by simp only [List.length_cons]; omega) with h | h
      · exact absurd h (List.cons_ne_nil b P')
      · rw [List.length_eq_zero] at hP0
        subst hP0
        exact h h2
    have hstep : noSplitStep np bs pi d idx b s
        = ⟨if d = false ∧ idx < np then s.initialData ++ b else s.initialData,
           if idx % np = pi then b else s.batchToYield, s.yields⟩ := by
      simp only [noSplitStep, if_neg hcond]
    simp only [noSplitLoop, hstep]
    by_cases hP' : P' = []
    · subst hP'
      simp only [noSplitLoop, NoSplitState.mk.injEq, List.flatten_cons, List.flatten_nil,
        List.append_nil, List.length_cons, List.length_nil]
      refine ⟨?_, ?_, trivial⟩
      · by_cases hc : d = false ∧ idx < np
        · rw [if_pos hc, if_pos hc]
        · rw [if_neg hc, if_neg hc, List.append_nil]
      · by_cases hjp : idx % np = pi
        · rw [if_pos hjp, if_pos (by omega)]
          have : pi - idx % np = 0 := by omega
          rw [this]
          rfl
        · rw [if_neg hjp, if_neg (by omega)]
    · have hP'len : 1 ≤ P'.length := List.length_pos.mpr hP'
      have h2np : 2 ≤ np := by omega
      have hjsucc : (idx + 1) % np = idx % np + 1 := by
        rw [Nat.add_mod, Nat.mod_eq_of_lt (show 1 < np by omega),
          Nat.mod_eq_of_lt (show idx % np + 1 < np by omega)]
      rw [noSplitLoop_shortRun np bs pi d hnp P' (idx + 1) _
        (by rw [hjsucc]; omega)
        (fun t ht => by
          have := hfull (t + 1) (by simp only [List.length_cons]; omega)
          simpa [List.getD_cons_succ] using this)
        (fun h => by
          rw [hjsucc] at h
          rcases hlast (by simp only [List.length_cons]; omega) with h' | h'
          · exact absurd h' (List.cons_ne_nil b P')
          · rw [getLastD_cons_ne b ([] : List Nat) ([] : List Nat) P' hP'] at h'
            exact Or.inr h')]
      simp only [NoSplitState.mk.injEq, List.flatten_cons, List.length_cons, hjsucc]
      refine ⟨?_, ?_, trivial⟩
      · by_cases hd : d = false
        · by_cases hidx : idx < np
          · have hidx1 : idx + 1 < np := by
              have : idx % np = idx := Nat.mod_eq_of_lt hidx
              omega
            rw [if_pos ⟨hd, hidx⟩, if_pos ⟨hd, hidx1⟩, if_pos ⟨hd, hidx⟩, List.append_assoc]
          · have hidx1 : ¬ idx + 1 < np := by omega
            rw [if_neg fun hc => hidx hc.2, if_neg fun hc => hidx1 hc.2,
              if_neg fun hc => hidx hc.2, List.append_nil]
        · rw [if_neg fun hc => hd hc.1, if_neg fun hc => hd hc.1, if_neg fun hc => hd hc.1,
            List.append_nil]
      · by_cases hjp : idx % np = pi
        · have hc1 : ¬ (idx % np + 1 ≤ pi ∧ pi < idx % np + 1 + P'.length) := by omega
          rw [if_neg hc1, if_pos hjp, if_pos (by omega)]
          have : pi - idx % np = 0 := by omega
          rw [this]
          rfl
        · by_cases hge : idx % np + 1 ≤ pi ∧ pi < idx % np + 1 + P'.length
          · rw [if_pos hge, if_pos (by omega)]
            have hsub : pi - idx % np = (pi - (idx % np + 1)) + 1 := by omega
            rw [hsub]
            rfl
          · rw [if_neg hge, if_neg hjp, if_neg (by omega)]

/-- Running the loop over exactly the batches that complete the current
round-robin group, all of them full, commits the worker's batch of the group
and yields it at the group's last position. -/
theorem noSplitLoop_fullRun (np bs pi : Nat) (d : Bool) (hnp : 0 < np) (hpi : pi < np) :
    ∀ (c : List (List Nat)) (idx : Nat) (s : NoSplitState),
    idx % np + c.length = np →
    (∀ b ∈ c, b.length = bs) →
    noSplitLoop np bs pi d idx s c
      = ⟨s.initialData ++ (if d = false ∧ idx < np then c.flatten else []),
         [],
         s.yields ++ [if idx % np ≤ pi then c.getD (pi - idx % np) [] else s.batchToYield]⟩
  | [], idx, s, hlen, _ => by
    have hj : idx % np < np := Nat.mod_lt idx hnp
    simp only [List.length_nil] at hlen
    omega
  | b :: c', idx, s, hlen, hfull => by
    have hj : idx % np < np := Nat.mod_lt idx hnp
    simp only [List.length_cons] at hlen
    have hb : b.length = bs := hfull b (List.mem_cons_self b c')
    by_cases hc' : c' = []
    · subst hc'
      have hjlast : idx % np = np - 1 := by simp only [List.length_nil] at hlen; omega
      have hcondpos : idx % np = np - 1 ∧ b.length = bs := ⟨hjlast, hb⟩
      have hstep : noSplitStep np bs pi d idx b s
          = ⟨if d = false ∧ idx < np then s.initialData ++ b else s.initialData,
             [], s.yields ++ [if idx % np = pi then b else s.batchToYield]⟩ := by
        simp only [noSplitStep, if_pos hcondpos]
      simp only [noSplitLoop, hstep, NoSplitState.mk.injEq, List.flatten_cons,
        List.flatten_nil, List.append_nil]
      refine ⟨?_, trivial, ?_⟩
      · by_cases hc : d = false ∧ idx < np
        · rw [if_pos hc, if_pos hc]
        · rw [if_neg hc, if_neg hc, List.append_nil]
      by_cases hjp : idx % np = pi
      · rw [if_pos hjp, if_pos (by omega)]
        have : pi - idx % np = 0 := by omega
        rw [this]
        rfl
      · rw [if_neg hjp, if_neg (by omega)]
    · have hc'len : 1 ≤ c'.length := List.length_pos.mpr hc'
      have hcond : ¬ (idx % np = np - 1 ∧ b.length = bs) := by
        rintro ⟨h1, _⟩
        omega
      have hstep : noSplitStep np bs pi d idx b s
          = ⟨if d = false ∧ idx < np then s.initialData ++ b else s.initialData,
             if idx % np = pi then b else s.batchToYield, s.yields⟩ := by
        simp only [noSplitStep, if_neg hcond]
      have h2np : 2 ≤ np := by omega
      have hjsucc : (idx + 1) % np = idx % np + 1 := by
        rw [Nat.add_mod, Nat.mod_eq_of_lt (show 1 < np by omega),
          Nat.mod_eq_of_lt (show idx % np + 1 < np by omega)]
      simp only [noSplitLoop, hstep]
      rw [noSplitLoop_fullRun np bs pi d hnp hpi c' (idx + 1) _
        (by rw [hjsucc]; omega)
        (fun x hx => hfull x (List.mem_cons_of_mem b hx))]
      simp only [NoSplitState.mk.injEq, List.flatten_cons, hjsucc]
      refine ⟨?_, trivial, ?_⟩
      · by_cases hd : d = false
        · by_cases hidx : idx < np
          · have hidx1 : idx + 1 < np := by
              have : idx % np = idx := Nat.mod_eq_of_lt hidx
              omega
            rw [if_pos ⟨hd, hidx⟩, if_pos ⟨hd, hidx1⟩, if_pos ⟨hd, hidx⟩, List.append_assoc]
          · have hidx1 : ¬ idx + 1 < np := by omega
            rw [if_neg fun hc => hidx hc.2, if_neg fun hc => hidx1 hc.2,
              if_neg fun hc => hidx hc.2, List.append_nil]
        · rw [if_neg fun hc => hd hc.1, if_neg fun hc => hd hc.1, if_neg fun hc => hd hc.1,
            List.append_nil]
      · by_cases hjp : idx % np = pi
        · have hc1 : ¬ (idx % np + 1 ≤ pi) := by omega
          rw [if_neg hc1, if_pos hjp, if_pos (by omega)]
          have : pi - idx % np = 0 := by omega
          rw [this]
          rfl
        · by_cases hge : idx % np + 1 ≤ pi
          · rw [if_pos hge, if_pos (by omega)]
            have hsub : pi - idx % np = (pi - (idx % np + 1)) + 1 := by omega
            rw [hsub]
            rfl
          · rw [if_neg hge, if_neg hjp, if_neg (by omega)]

theorem flatten_groups_length (np : Nat) :
    ∀ (C : List (List (List Nat))), (∀ c ∈ C, c.length = np) →
    C.flatten.length = C.length * np
  | [], _ => by simp
  | c :: C, h => by
    simp only [List.flatten_cons, List.length_append, List.length_cons]
    rw [flatten_groups_length np C fun x hx => h x (List.mem_cons_of_mem c hx),
      h c (List.mem_cons_self c C), Nat.succ_mul]
    omega

theorem mem_flatten_groups (np bs : Nat) (C : List (List (List Nat)))
    (hC : ∀ c ∈ C, c.length = np ∧ ∀ b ∈ c, b.length = bs) :
    ∀ b ∈ C.flatten, b.length = bs := by
  intro b hb
  rcases List.mem_flatten.mp hb with ⟨c, hc, hbc⟩
  exact (hC c hc).2 b hbc

theorem getD_length_of_group (np bs pi : Nat) (c : List (List Nat)) (hpi : pi < np)
    (hlen : c.length = np) (hfull : ∀ b ∈ c, b.length = bs) :
    (c.getD pi []).length = bs := by
  have hplt : pi < c.length := by omega
  rw [List.getD_eq_getElem _ _ hplt]
  exact hfull _ (List.getElem_mem hplt)

theorem getD_last_eq (P : List (List Nat)) (h : P ≠ []) :
    P.getD (P.length - 1) [] = P.getLastD [] := by
  induction P with
  | nil => exact absurd rfl h
  | cons p P ih =>
    rcases P with _ | ⟨q, Q⟩
    · rfl
    · have hrec := ih (List.cons_ne_nil q Q)
      simp only [List.length_cons] at hrec ⊢
      rw [show Q.length + 1 + 1 - 1 = (Q.length + 1 - 1) + 1 by omega, List.getD_cons_succ,
        hrec, getLastD_cons_ne p ([] : List Nat) ([] : List Nat) (q :: Q)
          (List.cons_ne_nil q Q)]

theorem take_flatten_pos (np : Nat) (b0 : List Nat) (rest : List (List Nat))
    (hnp : 0 < np) (h : 0 < b0.length) :
    0 < (((b0 :: rest).take np).flatten).length := by
  rcases np with _ | np'
  · omega
  · rw [List.take_succ_cons, List.flatten_cons, List.length_append]
    omega

/-- Full characterization of the `for` loop of `_iter_with_no_split` on a pass
made of complete all-full round-robin groups `C` followed by a residue `P`
(shorter than a group, or exactly a group whose last batch is short): the loop
yields worker `pi`'s batch of each complete group, holds its batch of the
residue, and accumulates the first `num_processes` batches as `initial_data`
when `drop_last` is false. -/
theorem noSplitLoop_groups (np bs pi : Nat) (d : Bool) (hnp : 0 < np) (hpi : pi < np) :
    ∀ (C : List (List (List Nat))) (P : List (List Nat)) (idx : Nat) (s : NoSplitState),
    idx % np = 0 →
    (∀ c ∈ C, c.length = np ∧ ∀ b ∈ c, b.length = bs) →
    P.length ≤ np →
    (∀ t, t + 1 < P.length → (P.getD t []).length = bs) →
    (P.length = np → (P.getLastD []).length ≠ bs) →
    s.batchToYield = [] →
    noSplitLoop np bs pi d idx s (C.flatten ++ P)
      = ⟨s.initialData
           ++ (if d = false ∧ idx = 0 then ((C.flatten ++ P).take np).flatten else []),
         if pi < P.length then P.getD pi [] else [],
         s.yields ++ C.map fun c => c.getD pi []⟩
  | [], P, idx, s, hidx, _, hPlen, hPfull, hPlast, hbty => by
    rw [List.flatten_nil, List.nil_append,
      noSplitLoop_shortRun np bs pi d hnp P idx s (by omega) hPfull
        (fun h => Or.inr (hPlast (by omega)))]
    simp only [NoSplitState.mk.injEq]
    refine ⟨?_, ?_, by simp⟩
    · have h1 : (d = false ∧ idx < np) ↔ (d = false ∧ idx = 0) := by
        constructor
        · rintro ⟨hd, hlt⟩
          refine ⟨hd, ?_⟩
          have := Nat.mod_eq_of_lt hlt
          omega
        · rintro ⟨hd, h0⟩
          exact ⟨hd, by omega⟩
      rw [List.take_of_length_le hPlen]
      by_cases hc : d = false ∧ idx = 0
      · rw [if_pos (h1.mpr hc), if_pos hc]
      · rw [if_neg (fun hx => hc (h1.mp hx)), if_neg hc]
    · rw [hidx, hbty]
      by_cases hp : pi < P.length
      · rw [if_pos (by omega), if_pos hp, Nat.sub_zero]
      · rw [if_neg (by omega), if_neg hp]
  | c :: C, P, idx, s, hidx, hC, hPlen, hPfull, hPlast, hbty => by
    obtain ⟨hclen, hcfull⟩ := hC c (List.mem_cons_self c C)
    have hCrest : ∀ x ∈ C, x.length = np ∧ ∀ b ∈ x, b.length = bs :=
      fun x hx => hC x (List.mem_cons_of_mem c hx)
    rw [List.flatten_cons, List.append_assoc, noSplitLoop_append np bs pi d c _ idx s,
      noSplitLoop_fullRun np bs pi d hnp hpi c idx s (by omega) hcfull, hclen,
      noSplitLoop_groups np bs pi d hnp hpi C P (idx + np) _
        (by rw [Nat.add_mod_right]; exact hidx) hCrest hPlen hPfull hPlast rfl]
    simp only [NoSplitState.mk.injEq]
    refine ⟨?_, trivial, ?_⟩
    · have hnz : ¬ (d = false ∧ idx + np = 0) := by
        rintro ⟨_, h0⟩
        omega
      rw [if_neg hnz, List.append_nil]
      have h1 : (d = false ∧ idx < np) ↔ (d = false ∧ idx = 0) := by
        constructor
        · rintro ⟨hd, hlt⟩
          refine ⟨hd, ?_⟩
          have := Nat.mod_eq_of_lt hlt
          omega
        · rintro ⟨hd, h0⟩
          exact ⟨hd, by omega⟩
      have htake : List.take np (c ++ (C.flatten ++ P)) = c := by
        rw [← hclen]
        exact List.take_left c (C.flatten ++ P)
      rw [htake]
      by_cases hc2 : d = false ∧ idx = 0
      · rw [if_pos (h1.mpr hc2), if_pos hc2]
      · rw [if_neg (fun hx => hc2 (h1.mp hx)), if_neg hc2]
    · rw [hidx, if_pos (Nat.zero_le pi), Nat.sub_zero, List.map_cons, List.append_assoc,
        List.singleton_append]

/-! ## Round-robin selection (spec side) -/

theorem roundRobinSelect_cons (np pi idx : Nat) (b : List Nat) (rest : List (List Nat)) :
    roundRobinSelect np pi idx (b :: rest)
      = (if idx % np = pi then [b] else []) ++ roundRobinSelect np pi (idx + 1) rest :=
  rfl

theorem roundRobinSelect_append (np pi : Nat) :
    ∀ (l₁ l₂ : List (List Nat)) (idx : Nat),
    roundRobinSelect np pi idx (l₁ ++ l₂)
      = roundRobinSelect np pi idx l₁ ++ roundRobinSelect np pi (idx + l₁.length) l₂
  | [], l₂, idx => by simp [roundRobinSelect]
  | b :: l₁, l₂, idx => by
    have harith : idx + (b :: l₁).length = idx + 1 + l₁.length := by
      simp only [List.length_cons]
      omega
    rw [List.cons_append, roundRobinSelect_cons, roundRobinSelect_cons,
      roundRobinSelect_append np pi l₁ l₂ (idx + 1), List.append_assoc, harith]

theorem roundRobinSelect_group (np pi : Nat) (hnp : 0 < np) (hpi : pi < np) :
    ∀ (c : List (List Nat)) (idx : Nat),
    idx % np + c.length = np →
    roundRobinSelect np pi idx c
      = if idx % np ≤ pi then [c.getD (pi - idx % np) []] else []
  | [], idx, hlen => by
    have := Nat.mod_lt idx hnp
    simp only [List.length_nil] at hlen
    omega
  | b :: c', idx, hlen => by
    have hj : idx % np < np := Nat.mod_lt idx hnp
    simp only [List.length_cons] at hlen
    by_cases hc' : c' = []
    · subst hc'
      simp only [List.length_nil] at hlen
      rw [roundRobinSelect_cons]
      by_cases hjp : idx % np = pi
      · rw [if_pos hjp, if_pos (by omega)]
        have h0 : pi - idx % np = 0 := by omega
        rw [h0]
        rfl
      · rw [if_neg hjp, if_neg (by omega)]
        rfl
    · have hc'len : 1 ≤ c'.length := List.length_pos.mpr hc'
      have h2np : 2 ≤ np := by omega
      have hjsucc : (idx + 1) % np = idx % np + 1 := by
        rw [Nat.add_mod, Nat.mod_eq_of_lt (show 1 < np by omega),
          Nat.mod_eq_of_lt (show idx % np + 1 < np by omega)]
      rw [roundRobinSelect_cons,
        roundRobinSelect_group np pi hnp hpi c' (idx + 1) (by rw [hjsucc]; omega), hjsucc]
      by_cases hjp : idx % np = pi
      · rw [if_pos hjp, if_neg (by omega), if_pos (by omega)]
        have h0 : pi - idx % np = 0 := by omega
        rw [h0, List.append_nil]
        rfl
      · by_cases hge : idx % np + 1 ≤ pi
        · rw [if_neg hjp, if_pos hge, if_pos (by omega)]
          have hsub : pi - idx % np = (pi - (idx % np + 1)) + 1 := by omega
          rw [hsub, List.nil_append, List.getD_cons_succ]
        · rw [if_neg hjp, if_neg hge, if_neg (by omega), List.append_nil]

theorem roundRobinSelect_groups (np pi : Nat) (hnp : 0 < np) (hpi : pi < np) :
    ∀ (C : List (List (List Nat))), (∀ c ∈ C, c.length = np) →
    ∀ idx, idx % np = 0 →
    roundRobinSelect np pi idx C.flatten = C.map fun c => c.getD pi []
  | [], _, idx, _ => rfl
  | c :: C, hC, idx, hidx => by
    have hclen : c.length = np := hC c (List.mem_cons_self c C)
    rw [List.flatten_cons, roundRobinSelect_append np pi c C.flatten idx,
      roundRobinSelect_group np pi hnp hpi c idx (by rw [hclen]; omega), hclen,
      roundRobinSelect_groups np pi hnp hpi C (fun x hx => hC x (List.mem_cons_of_mem c hx))
        (idx + np) (by rw [Nat.add_mod_right]; exact hidx),
      hidx, if_pos (Nat.zero_le pi), Nat.sub_zero, List.map_cons, List.singleton_append]

/-! ## The wraparound cycle loop -/

theorem cycleLoop_succ (np bs pi : Nat) (buf : List Nat) (fuel idx ci : Nat)
    (batch : List Nat) :
    cycleLoop np bs pi buf (fuel + 1) idx ci batch
      = if idx % np = 0 ∧ batch = [] then []
        else
          (if idx % np = pi then [batch ++ pySlice buf ci (ci + bs - batch.length)] else [])
            ++ cycleLoop np bs pi buf fuel (idx + 1) (ci + bs - batch.length) [] :=
  rfl

theorem cycleLoop_zeroEntry (np bs pi : Nat) (buf : List Nat) (fuel idx ci : Nat)
    (h : idx % np = 0) : cycleLoop np bs pi buf fuel idx ci [] = [] := by
  cases fuel with
  | zero => rfl
  | succ fuel =>
    have hc : idx % np = 0 ∧ ([] : List Nat) = [] := ⟨h, rfl⟩
    rw [cycleLoop_succ, if_pos hc]

theorem cycleLoop_emptyRun (np bs pi : Nat) (buf : List Nat) (hpi : pi < np) :
    ∀ (fuel idx ci : Nat),
    idx % np ≠ 0 →
    np - idx % np ≤ fuel →
    ci + (np - idx % np) * bs ≤ buf.length →
    (cycleLoop np bs pi buf fuel idx ci []).length = (if idx % np ≤ pi then 1 else 0)
    ∧ (∀ y ∈ cycleLoop np bs pi buf fuel idx ci [], y.length = bs)
  | 0, idx, ci, hj0, hfuel, _ => by
    have hj : idx % np < np := Nat.mod_lt idx (by omega)
    omega
  | fuel + 1, idx, ci, hj0, hfuel, hbuf => by
    have hnp : 0 < np := by omega
    have hj : idx % np < np := Nat.mod_lt idx hnp
    have hone : 1 ≤ np - idx % np := by omega
    have hcibs : ci + bs ≤ buf.length := by
      have hb : bs ≤ (np - idx % np) * bs := Nat.le_mul_of_pos_left bs (by omega)
      omega
    have hg : ¬ (idx % np = 0 ∧ ([] : List Nat) = []) := fun hc => hj0 hc.1
    have hEnd : ci + bs - ([] : List Nat).length = ci + bs := rfl
    have hslice : (pySlice buf ci (ci + bs)).length = bs := by
      rw [pySlice_length buf ci (ci + bs) hcibs]
      omega
    rw [cycleLoop_succ, if_neg hg, hEnd, List.nil_append]
    by_cases hlast : idx % np = np - 1
    · have h2np : 2 ≤ np := by omega
      have hnext : (idx + 1) % np = 0 := by
        rw [Nat.add_mod, hlast, Nat.mod_eq_of_lt (show 1 < np by omega),
          Nat.sub_add_cancel (by omega), Nat.mod_self]
      rw [cycleLoop_zeroEntry np bs pi buf fuel (idx + 1) (ci + bs) hnext, List.append_nil]
      constructor
      · by_cases hjp : idx % np = pi
        · rw [if_pos hjp, if_pos (by omega)]
          rfl
        · rw [if_neg hjp, if_neg (by omega)]
          rfl
      · intro y hy
        by_cases hjp : idx % np = pi
        · rw [if_pos hjp] at hy
          rcases List.mem_singleton.mp hy with rfl
          exact hslice
        · rw [if_neg hjp] at hy
          exact absurd hy (List.not_mem_nil y)
    · have h2np : 2 ≤ np := by omega
      have hjsucc : (idx + 1) % np = idx % np + 1 := by
        rw [Nat.add_mod, Nat.mod_eq_of_lt (show 1 < np by omega),
          Nat.mod_eq_of_lt (show idx % np + 1 < np by omega)]
      have hmulstep : (np - idx % np) * bs = (np - (idx % np + 1)) * bs + bs := by
        have h' : np - idx % np = (np - (idx % np + 1)) + 1 := by omega
        rw [h', Nat.succ_mul]
      have hrec := cycleLoop_emptyRun np bs pi buf hpi fuel (idx + 1) (ci + bs)
        (by rw [hjsucc]; omega) (by rw [hjsucc]; omega)
        (by rw [hjsucc]; omega)
      rw [hjsucc] at hrec
      constructor
      · rw [List.length_append, hrec.1]
        by_cases hjp : idx % np = pi
        · rw [if_pos hjp, if_neg (by omega), if_pos (by omega)]
          rfl
        · by_cases hge : idx % np + 1 ≤ pi
          · rw [if_neg hjp, if_pos hge, if_pos (by omega)]
            rfl
          · rw [if_neg hjp, if_neg hge, if_neg (by omega)]
            rfl
      · intro y hy
        rcases List.mem_append.mp hy with hy | hy
        · by_cases hjp : idx % np = pi
          · rw [if_pos hjp] at hy
            rcases List.mem_singleton.mp hy with rfl
            exact hslice
          · rw [if_neg hjp] at hy
            exact absurd hy (List.not_mem_nil y)
        · exact hrec.2 y hy

/-- Entering the wraparound loop with an empty residual batch at index `idx`:
nothing happens on a group boundary; otherwise one full batch is built for
each remaining position of the group. -/
theorem cycleLoop_tailFull (np bs pi : Nat) (buf : List Nat) (hpi : pi < np)
    (hbuf : np * bs ≤ buf.length) (idx : Nat) :
    (cycleLoop np bs pi buf (np + 1) idx 0 []).length
      = (if idx % np = 0 then 0 else if idx % np ≤ pi then 1 else 0)
    ∧ ∀ y ∈ cycleLoop np bs pi buf (np + 1) idx 0 [], y.length = bs := by
  by_cases h : idx % np = 0
  · rw [cycleLoop_zeroEntry np bs pi buf (np + 1) idx 0 h, if_pos h]
    exact ⟨rfl, fun y hy => absurd hy (List.not_mem_nil y)⟩
  · have hnp : 0 < np := by omega
    have hj : idx % np < np := Nat.mod_lt idx hnp
    have hs : (np - idx % np) * bs ≤ np * bs := Nat.mul_le_mul_right bs (Nat.sub_le np _)
    have hrun := cycleLoop_emptyRun np bs pi buf hpi (np + 1) idx 0 h (by omega) (by omega)
    rw [if_neg h]
    exact hrun

/-- Entering the wraparound loop with the leftover short batch: it is first
completed to a full batch with buffer elements, then the remaining positions
of the group are filled from the buffer. -/
theorem cycleLoop_tailShort (np bs pi : Nat) (buf : List Nat) (hpi : pi < np)
    (hbuf : np * bs ≤ buf.length) (idx : Nat) (b : List Nat) (hbne : b ≠ [])
    (hble : b.length ≤ bs) :
    (cycleLoop np bs pi buf (np + 1) idx 0 b).length
      = (if idx % np = pi then 1 else 0)
        + (if (idx + 1) % np = 0 then 0 else if (idx + 1) % np ≤ pi then 1 else 0)
    ∧ ∀ y ∈ cycleLoop np bs pi buf (np + 1) idx 0 b, y.length = bs := by
  have hnp : 0 < np := by omega
  have hg : ¬ (idx % np = 0 ∧ b = []) := fun hc => hbne hc.2
  have hbsbuf : bs ≤ buf.length := by
    have := Nat.le_mul_of_pos_left bs hnp
    omega
  have hslice : (b ++ pySlice buf 0 (0 + bs - b.length)).length = bs := by
    rw [List.length_append, pySlice_length buf 0 (0 + bs - b.length) (by omega)]
    omega
  rw [cycleLoop_succ, if_neg hg]
  by_cases h1 : (idx + 1) % np = 0
  · rw [cycleLoop_zeroEntry np bs pi buf np (idx + 1) (0 + bs - b.length) h1, List.append_nil,
      if_pos h1]
    constructor
    · by_cases hjp : idx % np = pi
      · rw [if_pos hjp, if_pos hjp]
        rfl
      · rw [if_neg hjp, if_neg hjp]
        rfl
    · intro y hy
      by_cases hjp : idx % np = pi
      · rw [if_pos hjp] at hy
        rcases List.mem_singleton.mp hy with rfl
        exact hslice
      · rw [if_neg hjp] at hy
        exact absurd hy (List.not_mem_nil y)
  · have hj1 : 1 ≤ (idx + 1) % np := by omega
    have hj1lt : (idx + 1) % np < np := Nat.mod_lt _ hnp
    have hmul : (np - (idx + 1) % np) * bs ≤ (np - 1) * bs :=
      Nat.mul_le_mul_right bs (by omega)
    have hmul2 : (np - 1) * bs + bs = np * bs := by
      have h' : np = (np - 1) + 1 := by omega
      calc (np - 1) * bs + bs = ((np - 1) + 1) * bs := (Nat.succ_mul (np - 1) bs).symm
      _ = np * bs := by rw [← h']
    have hrec := cycleLoop_emptyRun np bs pi buf hpi np (idx + 1) (0 + bs - b.length)
      h1 (by omega) (by omega)
    rw [if_neg h1]
    constructor
    · rw [List.length_append, hrec.1]
      by_cases hjp : idx % np = pi
      · rw [if_pos hjp, if_pos hjp]
        rfl
      · rw [if_neg hjp, if_neg hjp]
        rfl
    · intro y hy
      rcases List.mem_append.mp hy with hy | hy
      · by_cases hjp : idx % np = pi
        · rw [if_pos hjp] at hy
          rcases List.mem_singleton.mp hy with rfl
          exact hslice
        · rw [if_neg hjp] at hy
          exact absurd hy (List.not_mem_nil y)
      · exact hrec.2 y hy

/-! ## Counting helpers -/

theorem sum_range_const (n k : Nat) (f : Nat → Nat) (h : ∀ i, i < n → f i = k) :
    ((List.range n).map f).sum = n * k := by
  induction n with
  | zero => simp
  | succ n ih =>
    rw [List.range_succ, List.map_append, List.sum_append,
      ih fun i hi => h i (by omega)]
    simp only [List.map_cons, List.map_nil, List.sum_cons, List.sum_nil]
    rw [h n (by omega), Nat.succ_mul]
    omega

theorem iterWithNoSplit_ne (np bs pi : Nat) (d : Bool) (B : List (List Nat)) (h : B ≠ []) :
    iterWithNoSplit np bs pi d B
      = (noSplitLoop np bs pi d 0 ⟨[], [], []⟩ B).yields
        ++ noSplitTail np bs pi d (noSplitLoop np bs pi d 0 ⟨[], [], []⟩ B)
            (B.length - 1) (B.getLastD []) := by
  rcases B with _ | ⟨b0, rest⟩
  · exact absurd rfl h
  · rfl

theorem mem_getD (P : List (List Nat)) (b : List Nat) (hb : b ∈ P) :
    ∃ t, t < P.length ∧ P.getD t [] = b := by
  obtain ⟨t, ht, he⟩ := List.mem_iff_getElem.mp hb
  exact ⟨t, ht, by rw [List.getD_eq_getElem _ _ ht, he]⟩

/-- Every batch of a canonical residue is nonempty. -/
theorem mem_P_pos (bs : Nat) (P : List (List Nat)) (hbs : 1 ≤ bs)
    (hPfull : ∀ t, t + 1 < P.length → (P.getD t []).length = bs)
    (hPne : P ≠ [] → 1 ≤ (P.getLastD []).length) :
    ∀ b ∈ P, 0 < b.length := by
  intro b hb
  obtain ⟨t, ht, rfl⟩ := mem_getD P b hb
  by_cases hlast : t + 1 < P.length
  · have := hPfull t hlast
    omega
  · have hPne' : P ≠ [] := by
      rintro rfl
      simp at ht
    have hlen := hPne hPne'
    rw [← getD_last_eq P hPne'] at hlen
    have htlast : t = P.length - 1 := by omega
    rw [htlast]
    omega

theorem lenShard_mul (np q : Nat) (hnp : 0 < np) (d : Bool) :
    lenBatchSamplerShard np (q * np) d = q := by
  have h : q * np % np = 0 := Nat.mul_mod_left q np
  unfold lenBatchSamplerShard
  rw [if_pos h, Nat.mul_div_cancel q hnp]

theorem lenShard_mul_add (np q p : Nat) (hnp : 0 < np) (hp1 : 1 ≤ p) (hp2 : p ≤ np) :
    lenBatchSamplerShard np (q * np + p) false = q + 1 := by
  by_cases hpn : p = np
  · rw [hpn, show q * np + np = (q + 1) * np from (Nat.succ_mul q np).symm,
      lenShard_mul np (q + 1) hnp false]
  · have hplt : p < np := by omega
    have hmod : (q * np + p) % np = p := by
      rw [Nat.mul_comm q np, Nat.mul_add_mod, Nat.mod_eq_of_lt hplt]
    have hdiv : (q * np + p) / np = q := by
      rw [Nat.mul_comm q np, Nat.mul_add_div hnp, Nat.div_eq_of_lt hplt, Nat.add_zero]
    unfold lenBatchSamplerShard
    rw [hmod, hdiv, if_neg (by omega)]
    simp

theorem lenShard_true (np q p : Nat) (hnp : 0 < np) (hp : p < np) :
    lenBatchSamplerShard np (q * np + p) true = q := by
  by_cases hp0 : p = 0
  · subst hp0
    rw [Nat.add_zero, lenShard_mul np q hnp true]
  · have hmod : (q * np + p) % np = p := by
      rw [Nat.mul_comm q np, Nat.mul_add_mod, Nat.mod_eq_of_lt hp]
    have hdiv : (q * np + p) / np = q := by
      rw [Nat.mul_comm q np, Nat.mul_add_div hnp, Nat.div_eq_of_lt hp, Nat.add_zero]
    unfold lenBatchSamplerShard
    rw [hmod, hdiv, if_neg hp0]
    simp

theorem groups_flatten_nil (np bs : Nat) (C : List (List (List Nat))) (hnp : 0 < np)
    (hC : ∀ c ∈ C, c.length = np ∧ ∀ b ∈ c, b.length = bs) (h : C.flatten = []) :
    C = [] := by
  rcases C with _ | ⟨c, C'⟩
  · rfl
  · exfalso
    have hc := (hC c (List.mem_cons_self c C')).1
    rw [List.flatten_cons] at h
    obtain ⟨hc0, _⟩ := List.append_eq_nil.mp h
    rw [hc0] at hc
    simp at hc
    omega

/-- With `drop_last` true the wraparound tail is never entered: the output is
exactly the picks of the complete full groups, and a trailing residue is
silently dropped. -/
theorem iterWithNoSplit_true_count (np bs pi : Nat)
    (C : List (List (List Nat))) (P : List (List Nat))
    (hpi : pi < np)
    (hC : ∀ c ∈ C, c.length = np ∧ ∀ b ∈ c, b.length = bs)
    (hPlen : P.length ≤ np)
    (hPfull : ∀ t, t + 1 < P.length → (P.getD t []).length = bs)
    (hPlast : P.length = np → (P.getLastD []).length ≠ bs) :
    iterWithNoSplit np bs pi true (C.flatten ++ P) = C.map fun c => c.getD pi [] := by
  have hnp : 0 < np := by omega
  by_cases hB : C.flatten ++ P = []
  · rw [hB, groups_flatten_nil np bs C hnp hC (List.append_eq_nil.mp hB).1]
    rfl
  · rw [iterWithNoSplit_ne np bs pi true _ hB,
      noSplitLoop_groups np bs pi true hnp hpi C P 0 ⟨[], [], []⟩ rfl hC hPlen hPfull
        hPlast rfl]
    simp only [noSplitTail]
    rw [if_neg (by rintro ⟨h, _⟩; exact absurd h (by simp))]
    simp

/-- A pass made only of complete all-full groups yields exactly the worker's
pick of each group, for either completion policy. -/
theorem iterWithNoSplit_full_pass (np bs pi : Nat) (d : Bool)
    (C : List (List (List Nat))) (hnp : 0 < np) (hpi : pi < np)
    (hC : ∀ c ∈ C, c.length = np ∧ ∀ b ∈ c, b.length = bs) :
    iterWithNoSplit np bs pi d C.flatten = C.map fun c => c.getD pi [] := by
  cases d with
  | true =>
    have h := iterWithNoSplit_true_count np bs pi C [] hpi hC (by simp) (by simp)
      (fun h => by simp at h; omega)
    simpa using h
  | false =>
    by_cases hB : C.flatten = []
    · rw [hB, groups_flatten_nil np bs C hnp hC hB]
      rfl
    · have hmaster := noSplitLoop_groups np bs pi false hnp hpi C [] 0 ⟨[], [], []⟩ rfl hC
        (by simp) (by simp) (fun h => by simp at h; omega) rfl
      rw [List.append_nil] at hmaster
      have hmaster' : noSplitLoop np bs pi false 0 ⟨[], [], []⟩ C.flatten
          = ⟨(C.flatten.take np).flatten, [], C.map fun c => c.getD pi []⟩ := by
        rw [hmaster]
        simp
      rw [iterWithNoSplit_ne np bs pi false _ hB, hmaster']
      simp only [noSplitTail]
      by_cases hID : 0 < ((C.flatten.take np).flatten).length
      · rw [if_pos ⟨trivial, hID⟩]
        obtain ⟨x, hx⟩ := List.exists_mem_of_length_pos hID
        obtain ⟨bmem, hbmem, hxb⟩ := List.mem_flatten.mp hx
        have hbfull : bmem.length = bs :=
          mem_flatten_groups np bs C hC bmem (List.mem_of_mem_take hbmem)
        have hbs1 : 1 ≤ bs := by
          have hpos : 0 < bmem.length := List.length_pos.mpr (by rintro rfl; simp at hxb)
          omega
        rw [if_neg (by simp only [List.length_nil]; omega)]
        have hlastfull : ((C.flatten).getLastD []).length = bs :=
          mem_flatten_groups np bs C hC _ (getLastD_mem C.flatten [] hB)
        rw [if_pos hlastfull]
        have hL0 : 1 ≤ C.flatten.length := List.length_pos.mpr hB
        rw [show C.flatten.length - 1 + 1 = C.flatten.length by omega,
          cycleLoop_zeroEntry np bs pi _ (np + 1) _ 0
            (by rw [flatten_groups_length np C (fun c hc => (hC c hc).1)]
                exact Nat.mul_mod_left C.length np),
          List.append_nil, List.append_nil]
      · rw [if_neg (by rintro ⟨_, h2⟩; exact hID h2), List.append_nil]

/-- With `drop_last` false, every worker yields exactly the number of batches
reported by `__len__`, and every yielded batch is full. -/
theorem iterWithNoSplit_false_count (np bs pi : Nat)
    (C : List (List (List Nat))) (P : List (List Nat))
    (hpi : pi < np) (hbs : 1 ≤ bs)
    (hC : ∀ c ∈ C, c.length = np ∧ ∀ b ∈ c, b.length = bs)
    (hPlen : P.length ≤ np)
    (hPfull : ∀ t, t + 1 < P.length → (P.getD t []).length = bs)
    (hPne : P ≠ [] → 1 ≤ (P.getLastD []).length)
    (hPle : P ≠ [] → (P.getLastD []).length ≤ bs)
    (hPlast : P.length = np → (P.getLastD []).length < bs) :
    (iterWithNoSplit np bs pi false (C.flatten ++ P)).length
      = lenBatchSamplerShard np (C.flatten ++ P).length false
    ∧ ∀ y ∈ iterWithNoSplit np bs pi false (C.flatten ++ P), y.length = bs := by
  have hnp : 0 < np := by omega
  have hCgrp : ∀ c ∈ C, c.length = np := fun c hc => (hC c hc).1
  have hLflat : C.flatten.length = C.length * np := flatten_groups_length np C hCgrp
  by_cases hP : P = []
  · subst hP
    rw [List.append_nil, iterWithNoSplit_full_pass np bs pi false C hnp hpi hC]
    constructor
    · rw [List.length_map, hLflat, lenShard_mul np C.length hnp false]
    · intro y hy
      rcases List.mem_map.mp hy with ⟨c, hc, rfl⟩
      exact getD_length_of_group np bs pi c hpi (hC c hc).1 (hC c hc).2
  · have hPlenpos : 1 ≤ P.length := List.length_pos.mpr hP
    have hs1 : 1 ≤ (P.getLastD []).length := hPne hP
    have hsle : (P.getLastD []).length ≤ bs := hPle hP
    have hBne : C.flatten ++ P ≠ [] := fun h => hP (List.append_eq_nil.mp h).2
    obtain ⟨b0, rest, hBeq⟩ := List.exists_cons_of_ne_nil hBne
    have hb0 : 0 < b0.length := by
      have hb0mem : b0 ∈ C.flatten ++ P := by
        rw [hBeq]
        exact List.mem_cons_self b0 rest
      rcases List.mem_append.mp hb0mem with h | h
      · have := mem_flatten_groups np bs C hC b0 h
        omega
      · exact mem_P_pos bs P hbs hPfull hPne b0 h
    have hIDpos : 0 < (((C.flatten ++ P).take np).flatten).length := by
      rw [hBeq]
      exact take_flatten_pos np b0 rest hnp hb0
    have hIDne : ((C.flatten ++ P).take np).flatten ≠ [] := by
      intro h
      rw [h] at hIDpos
      simp at hIDpos
    have hbuf : np * bs ≤ (tile (((C.flatten ++ P).take np).flatten) (np * bs)).length :=
      tile_length _ _ hIDne
    have hlastB : (C.flatten ++ P).getLastD [] = P.getLastD [] :=
      getLastD_append_ne C.flatten P [] hP
    have hL : (C.flatten ++ P).length = C.length * np + P.length := by
      rw [List.length_append, hLflat]
    have hmaster := noSplitLoop_groups np bs pi false hnp hpi C P 0 ⟨[], [], []⟩ rfl hC hPlen
      hPfull (fun h => Nat.ne_of_lt (hPlast h)) rfl
    have hmaster' : noSplitLoop np bs pi false 0 ⟨[], [], []⟩ (C.flatten ++ P)
        = ⟨((C.flatten ++ P).take np).flatten,
           (if pi < P.length then P.getD pi [] else []),
           C.map fun c => c.getD pi []⟩ := by
      rw [hmaster]
      simp
    rw [iterWithNoSplit_ne np bs pi false _ hBne, hmaster']
    simp only [noSplitTail]
    rw [if_pos ⟨trivial, hIDpos⟩, hlastB]
    by_cases hsfull : (P.getLastD []).length = bs
    · have hplt : P.length < np := by
        by_contra hcon
        have hpeq : P.length = np := by omega
        have := hPlast hpeq
        omega
      rw [if_pos hsfull,
        show (C.flatten ++ P).length - 1 + 1 = (C.flatten ++ P).length by rw [hL]; omega]
      have hcyc := cycleLoop_tailFull np bs pi
        (tile (((C.flatten ++ P).take np).flatten) (np * bs)) hpi hbuf
        ((C.flatten ++ P).length)
      have hmodL : (C.flatten ++ P).length % np = P.length := by
        rw [hL, Nat.mul_comm C.length np, Nat.mul_add_mod, Nat.mod_eq_of_lt (by omega)]
      have hy1 : (if (if pi < P.length then P.getD pi [] else []).length = bs
          then [(if pi < P.length then P.getD pi [] else [])] else []).length
          = if pi < P.length then 1 else 0 := by
        by_cases hpp : pi < P.length
        · rw [if_pos hpp]
          have hBTYbs : (P.getD pi []).length = bs := by
            by_cases h2 : pi + 1 < P.length
            · exact hPfull pi h2
            · rw [show pi = P.length - 1 by omega, getD_last_eq P hP]
              exact hsfull
          rw [if_pos hBTYbs, if_pos hpp]
          rfl
        · rw [if_neg hpp, if_neg (by simp only [List.length_nil]; omega), if_neg hpp]
          rfl
      constructor
      · rw [List.length_append, List.length_append, List.length_map, hy1, hcyc.1, hmodL, hL,
          lenShard_mul_add np C.length P.length hnp (by omega) (by omega)]
        split_ifs <;> omega
      · intro y hy
        rcases List.mem_append.mp hy with hy | hy
        · rcases List.mem_map.mp hy with ⟨c, hc, rfl⟩
          exact getD_length_of_group np bs pi c hpi (hC c hc).1 (hC c hc).2
        · rcases List.mem_append.mp hy with hy | hy
          · by_cases hcondy : (if pi < P.length then P.getD pi [] else []).length = bs
            · rw [if_pos hcondy] at hy
              rcases List.mem_singleton.mp hy with rfl
              exact hcondy
            · rw [if_neg hcondy] at hy
              exact absurd hy (List.not_mem_nil y)
          · exact hcyc.2 y hy
    · have hslt : (P.getLastD []).length < bs := by omega
      rw [if_neg hsfull]
      have hlastne : P.getLastD [] ≠ [] := by
        intro h
        rw [h] at hs1
        simp at hs1
      have hcyc := cycleLoop_tailShort np bs pi
        (tile (((C.flatten ++ P).take np).flatten) (np * bs)) hpi hbuf
        ((C.flatten ++ P).length - 1) (P.getLastD []) hlastne hsle
      have hLm1 : (C.flatten ++ P).length - 1 + 1 = (C.flatten ++ P).length := by
        rw [hL]
        omega
      rw [hLm1] at hcyc
      have hmodL1 : ((C.flatten ++ P).length - 1) % np = P.length - 1 := by
        rw [hL, show C.length * np + P.length - 1 = C.length * np + (P.length - 1) by omega,
          Nat.mul_comm C.length np, Nat.mul_add_mod, Nat.mod_eq_of_lt (by omega)]
      have hy1 : (if (if pi < P.length then P.getD pi [] else []).length = bs
          then [(if pi < P.length then P.getD pi [] else [])] else []).length
          = if pi + 1 < P.length then 1 else 0 := by
        by_cases h2 : pi + 1 < P.length
        · rw [if_pos (show pi < P.length by omega), if_pos (hPfull pi h2), if_pos h2]
          rfl
        · by_cases hpp : pi < P.length
          · rw [if_pos hpp]
            have hne2 : (P.getD pi []).length ≠ bs := by
              rw [show pi = P.length - 1 by omega, getD_last_eq P hP]
              omega
            rw [if_neg hne2, if_neg h2]
            rfl
          · rw [if_neg hpp, if_neg (by simp only [List.length_nil]; omega), if_neg h2]
            rfl
      constructor
      · rw [List.length_append, List.length_append, List.length_map, hy1, hcyc.1, hmodL1]
        by_cases hpn : P.length = np
        · have hmod0 : (C.flatten ++ P).length % np = 0 := by
            rw [hL, hpn,
              show C.length * np + np = (C.length + 1) * np from (Nat.succ_mul C.length np).symm,
              Nat.mul_mod_left]
          rw [hmod0, hL, lenShard_mul_add np C.length P.length hnp (by omega) (by omega)]
          split_ifs <;> omega
        · have hmodL : (C.flatten ++ P).length % np = P.length := by
            rw [hL, Nat.mul_comm C.length np, Nat.mul_add_mod, Nat.mod_eq_of_lt (by omega)]
          rw [hmodL, hL, lenShard_mul_add np C.length P.length hnp (by omega) (by omega)]
          split_ifs <;> omega
      · intro y hy
        rcases List.mem_append.mp hy with hy | hy
        · rcases List.mem_map.mp hy with ⟨c, hc, rfl⟩
          exact getD_length_of_group np bs pi c hpi (hC c hc).1 (hC c hc).2
        · rcases List.mem_append.mp hy with hy | hy
          · by_cases hcondy : (if pi < P.length then P.getD pi [] else []).length = bs
            · rw [if_pos hcondy] at hy
              rcases List.mem_singleton.mp hy with rfl
              exact hcondy
            · rw [if_neg hcondy] at hy
              exact absurd hy (List.not_mem_nil y)
          · exact hcyc.2 y hy

/-! ## Claim theorems: split mode, lengths, construction, composition -/

/-- A pass of only full batches is sliced batch by batch, for either value of
`drop_last`. -/
theorem iterWithSplit_full_eq (np bs pi : Nat) (d : Bool) (B : List (List Nat))
    (hfull : ∀ b ∈ B, b.length = bs) :
    iterWithSplit np bs pi d B
      = B.map (fun b => pySlice b (bs / np * pi) (bs / np * (pi + 1))) := by
  rcases B with _ | ⟨b0, B'⟩
  · rfl
  · have hmain := filterMap_full np bs pi (b0 :: B') hfull
    have hlast : ((b0 :: B').getLastD []).length = bs :=
      hfull _ (getLastD_mem (b0 :: B') [] (List.cons_ne_nil b0 B'))
    cases d with
    | false => rw [iterWithSplit_cons, if_neg fun hc => by have := hc.2.2; omega, hmain]
    | true => rw [iterWithSplit_cons, if_neg fun hc => by simp at hc, hmain]

/-- With `drop_last` false and a short final batch, the pass is the full
batches' slices followed by one synthetic slice built from the short batch
and the tiled first batch. -/
theorem iterWithSplit_short_eq (np bs pi : Nat) (F : List (List Nat)) (lastB : List Nat)
    (hF : ∀ b ∈ F, b.length = bs) (hshort : lastB.length < bs)
    (hne : 0 < ((F ++ [lastB]).headD []).length) :
    iterWithSplit np bs pi false (F ++ [lastB])
      = F.map (fun b => pySlice b (bs / np * pi) (bs / np * (pi + 1)))
        ++ [pySlice (lastB ++ tile ((F ++ [lastB]).headD []) bs)
              (bs / np * pi) (bs / np * (pi + 1))] := by
  have hmain : ((F ++ [lastB]).filterMap fun b =>
      if b.length = bs then some (pySlice b (bs / np * pi) (bs / np * (pi + 1))) else none)
      = F.map fun b => pySlice b (bs / np * pi) (bs / np * (pi + 1)) := by
    rw [List.filterMap_append, filterMap_full np bs pi F hF]
    simp [Nat.ne_of_lt hshort]
  have hlast : (F ++ [lastB]).getLastD [] = lastB := getLastD_append_singleton F lastB []
  rcases F with _ | ⟨f, F'⟩
  · rw [List.nil_append] at hmain hlast hne ⊢
    rw [iterWithSplit_cons, hlast, if_pos ⟨rfl, by simpa using hne, hshort⟩, hmain]
    rfl
  · rw [List.cons_append] at hmain hlast hne ⊢
    rw [iterWithSplit_cons, hlast, if_pos ⟨rfl, by simpa using hne, hshort⟩, hmain]
    rfl

/-- With `drop_last` true a short final batch is never processed. -/
theorem iterWithSplit_short_drop (np bs pi : Nat) (F : List (List Nat)) (lastB : List Nat)
    (hF : ∀ b ∈ F, b.length = bs) (hshort : lastB.length < bs) :
    iterWithSplit np bs pi true (F ++ [lastB])
      = F.map (fun b => pySlice b (bs / np * pi) (bs / np * (pi + 1))) := by
  have hmain : ((F ++ [lastB]).filterMap fun b =>
      if b.length = bs then some (pySlice b (bs / np * pi) (bs / np * (pi + 1))) else none)
      = F.map fun b => pySlice b (bs / np * pi) (bs / np * (pi + 1)) := by
    rw [List.filterMap_append, filterMap_full np bs pi F hF]
    simp [Nat.ne_of_lt hshort]
  rcases F with _ | ⟨f, F'⟩
  · rw [List.nil_append] at hmain ⊢
    rw [iterWithSplit_cons, if_neg fun hc => by simp at hc, hmain]
  · rw [List.cons_append] at hmain ⊢
    rw [iterWithSplit_cons, if_neg fun hc => by simp at hc, hmain]

/-- The synthetic final slice has exactly `batch_size / num_processes`
elements. -/
theorem shortTail_slice_length (np bs pi : Nat) (F : List (List Nat)) (lastB : List Nat)
    (hpi : pi < np) (hdvd : np ∣ bs)
    (hne : 0 < ((F ++ [lastB]).headD []).length) :
    bs ≤ (tile ((F ++ [lastB]).headD []) bs).length
    ∧ (pySlice (lastB ++ tile ((F ++ [lastB]).headD []) bs)
        (bs / np * pi) (bs / np * (pi + 1))).length = bs / np := by
  have hb0ne : (F ++ [lastB]).headD [] ≠ [] := by
    intro h
    rw [h] at hne
    exact absurd hne (by simp)
  have htile : bs ≤ (tile ((F ++ [lastB]).headD []) bs).length :=
    tile_length _ bs hb0ne
  refine ⟨htile, ?_⟩
  refine pySlice_full_length np bs pi _ ?_ hdvd hpi
  rw [List.length_append]
  omega

/-- C3: in `SplitWithinBatch` mode with `batch_size` divisible by `worker_count`,
every full incoming batch is handed out as contiguous slices of length
`batch_size / worker_count`, worker `i` getting slice
`[i*slice_len, (i+1)*slice_len)`, and concatenating the slices of workers
`0 .. worker_count - 1` in index order reconstructs the original batch. -/
theorem C3_split_slices (np bs pi : Nat) (drop : Bool) (B : List (List Nat))
    (hpi : pi < np) (hdvd : np ∣ bs) (hfull : ∀ b ∈ B, b.length = bs) :
    iterWithSplit np bs pi drop B
      = B.map (fun b => pySlice b (bs / np * pi) (bs / np * (pi + 1)))
    ∧ (∀ b ∈ B,
        ((List.range np).map fun i => pySlice b (bs / np * i) (bs / np * (i + 1))).flatten = b) := by
  constructor
  · exact iterWithSplit_full_eq np bs pi drop B hfull
  · intro b hb
    have hlen : b.length = bs := hfull b hb
    have hmul : bs / np * np = bs := Nat.div_mul_cancel hdvd
    rw [join_slices_take (bs / np) b np, hmul, ← hlen, List.take_length]

/-- Witness for C3 at a concrete input. -/
theorem C3_split_slices_witness :
    iterWithSplit 2 4 1 false [[0,1,2,3],[4,5,6,7]]
      = [[0,1,2,3],[4,5,6,7]].map (fun b => pySlice b (4 / 2 * 1) (4 / 2 * (1 + 1)))
    ∧ (∀ b ∈ [[0,1,2,3],[4,5,6,7]],
        ((List.range 2).map fun i => pySlice b (4 / 2 * i) (4 / 2 * (i + 1))).flatten = b) :=
  C3_split_slices 2 4 1 false [[0,1,2,3],[4,5,6,7]] (by decide) (by decide) (by decide)

/-- C4: in `SplitWithinBatch` mode with `drop_last` false and a short final
batch, the first batch of the pass is tiled to length at least `batch_size`,
appended after the short batch, and sliced like a full batch, giving one final
slice of exactly `batch_size / worker_count` elements; with `drop_last` true
the short final batch produces no yield. -/
theorem C4_split_tail (np bs pi : Nat) (F : List (List Nat)) (lastB : List Nat)
    (hpi : pi < np) (hdvd : np ∣ bs) (hF : ∀ b ∈ F, b.length = bs)
    (hshort : lastB.length < bs) (hne : 0 < ((F ++ [lastB]).headD []).length) :
    iterWithSplit np bs pi false (F ++ [lastB])
      = F.map (fun b => pySlice b (bs / np * pi) (bs / np * (pi + 1)))
        ++ [pySlice (lastB ++ tile ((F ++ [lastB]).headD []) bs)
              (bs / np * pi) (bs / np * (pi + 1))]
    ∧ bs ≤ (tile ((F ++ [lastB]).headD []) bs).length
    ∧ (pySlice (lastB ++ tile ((F ++ [lastB]).headD []) bs)
        (bs / np * pi) (bs / np * (pi + 1))).length = bs / np
    ∧ iterWithSplit np bs pi true (F ++ [lastB])
        = F.map (fun b => pySlice b (bs / np * pi) (bs / np * (pi + 1))) := by
  obtain ⟨htile, hsl⟩ := shortTail_slice_length np bs pi F lastB hpi hdvd hne
  exact ⟨iterWithSplit_short_eq np bs pi F lastB hF hshort hne, htile, hsl,
    iterWithSplit_short_drop np bs pi F lastB hF hshort⟩

/-- Witness for C4 at a concrete input. -/
theorem C4_split_tail_witness :
    iterWithSplit 2 4 0 false [[0,1,2,3],[4,5]]
      = [[0,1,2,3]].map (fun b => pySlice b (4 / 2 * 0) (4 / 2 * (0 + 1)))
        ++ [pySlice ([4,5] ++ tile (([[0,1,2,3]] ++ [[4,5]]).headD []) 4)
              (4 / 2 * 0) (4 / 2 * (0 + 1))]
    ∧ 4 ≤ (tile (([[0,1,2,3]] ++ [[4,5]]).headD []) 4).length
    ∧ (pySlice ([4,5] ++ tile (([[0,1,2,3]] ++ [[4,5]]).headD []) 4)
        (4 / 2 * 0) (4 / 2 * (0 + 1))).length = 4 / 2
    ∧ iterWithSplit 2 4 0 true ([[0,1,2,3]] ++ [[4,5]])
        = [[0,1,2,3]].map (fun b => pySlice b (4 / 2 * 0) (4 / 2 * (0 + 1))) := by
  have h := C4_split_tail 2 4 0 [[0,1,2,3]] [4,5] (by decide) (by decide) (by decide)
    (by decide) (by decide)
  simpa using h

/-- C6: the reported `__len__` is the floor of `upstream_length / worker_count`
when the division is exact, the floor when `drop_last` is set, and the
ceiling — floor plus one — otherwise. -/
theorem C6_len_contract (np L : Nat) (drop : Bool) (hnp : 1 ≤ np) :
    (L % np = 0 → lenBatchSamplerShard np L drop = L / np)
    ∧ (L % np ≠ 0 →
        lenBatchSamplerShard np L true = L / np
        ∧ lenBatchSamplerShard np L false = L / np + 1)
    ∧ lenBatchSamplerShard np L false = (L + np - 1) / np := by
  refine ⟨fun h => by simp [lenBatchSamplerShard, h], fun h => ⟨by simp [lenBatchSamplerShard, h],
    by simp [lenBatchSamplerShard, h]⟩, ?_⟩
  have h0 : 0 < np := hnp
  have hdm : np * (L / np) + L % np = L := Nat.div_add_mod L np
  by_cases h : L % np = 0
  · have hq : np * (L / np) = L := by omega
    have h1 : L + np - 1 = np * (L / np) + (np - 1) := by
      rw [Nat.add_sub_assoc hnp L, hq]
    have h2 : (np * (L / np) + (np - 1)) / np = L / np + (np - 1) / np :=
      Nat.mul_add_div h0 _ _
    have h3 : (np - 1) / np = 0 := Nat.div_eq_of_lt (by omega)
    simp only [lenBatchSamplerShard, if_pos h]
    rw [h1, h2, h3, Nat.add_zero]
  · have hmodlt : L % np < np := Nat.mod_lt L h0
    have key : ∀ q r : Nat, r ≠ 0 → r < np →
        (np * q + r) / np + 1 = (np * q + r + np - 1) / np := by
      intro q r hr0 hrlt
      have e1 : np * q + r + np - 1 = np * q + (r + (np - 1)) := by
        rw [Nat.add_sub_assoc hnp (np * q + r), Nat.add_assoc]
      have e3 : (r + (np - 1)) / np = 1 := by
        apply Nat.div_eq_of_lt_le <;> omega
      have e5 : r / np = 0 := Nat.div_eq_of_lt hrlt
      rw [e1, Nat.mul_add_div h0, Nat.mul_add_div h0, e3, e5]
    have hthis := key (L / np) (L % np) h hmodlt
    rw [Nat.div_add_mod L np] at hthis
    simp only [lenBatchSamplerShard, if_neg h, Bool.false_eq_true, if_false]
    exact hthis

/-- Witness for C6 at a concrete input. -/
theorem C6_len_contract_witness :
    (3 % 2 = 0 → lenBatchSamplerShard 2 3 false = 3 / 2)
    ∧ (3 % 2 ≠ 0 →
        lenBatchSamplerShard 2 3 true = 3 / 2
        ∧ lenBatchSamplerShard 2 3 false = 3 / 2 + 1)
    ∧ lenBatchSamplerShard 2 3 false = (3 + 2 - 1) / 2 :=
  C6_len_contract 2 3 false (by decide)

/-- C8: construction raises exactly when `split_batches` is requested with a
batch size not divisible by the number of processes, and `prepare_data_loader`
performs the same divisibility check eagerly; when the check passes the
configuration is recorded unchanged (and iteration, a total function in this
embedding, can never raise it). -/
theorem C8_config_error (np bs pi : Nat) (drop split : Bool) (hnp : 1 ≤ np) :
    ((∃ e, initBatchSamplerShard bs drop np pi split = .error e)
      ↔ split = true ∧ ¬ np ∣ bs)
    ∧ ((∃ e, prepareDataLoaderCheck bs np split = .error e)
      ↔ split = true ∧ ¬ np ∣ bs)
    ∧ (¬ (split = true ∧ ¬ np ∣ bs) →
        initBatchSamplerShard bs drop np pi split = .ok ⟨np, pi, split, bs, drop⟩) := by
  have hdvd : np ∣ bs ↔ bs % np = 0 := Nat.dvd_iff_mod_eq_zero
  refine ⟨?_, ?_, ?_⟩
  · by_cases h : split = true ∧ bs % np ≠ 0
    · rw [initBatchSamplerShard, if_pos h]
      exact ⟨fun _ => ⟨h.1, fun hd => h.2 (hdvd.mp hd)⟩, fun _ => ⟨_, rfl⟩⟩
    · rw [initBatchSamplerShard, if_neg h]
      constructor
      · rintro ⟨e, he⟩
        exact absurd he (by simp)
      · rintro ⟨h1, h2⟩
        exact absurd ⟨h1, fun hmod => h2 (hdvd.mpr hmod)⟩ h
  · by_cases h : split = true ∧ bs % np ≠ 0
    · rw [prepareDataLoaderCheck, if_pos h]
      exact ⟨fun _ => ⟨h.1, fun hd => h.2 (hdvd.mp hd)⟩, fun _ => ⟨_, rfl⟩⟩
    · rw [prepareDataLoaderCheck, if_neg h]
      constructor
      · rintro ⟨e, he⟩
        exact absurd he (by simp)
      · rintro ⟨h1, h2⟩
        exact absurd ⟨h1, fun hmod => h2 (hdvd.mpr hmod)⟩ h
  · intro h
    rw [initBatchSamplerShard, if_neg fun hc => h ⟨hc.1, fun hd => hc.2 (hdvd.mp hd)⟩]

/-- Witness for C8 at a concrete input. -/
theorem C8_config_error_witness :
    ((∃ e, initBatchSamplerShard 3 false 2 0 true = .error e)
      ↔ true = true ∧ ¬ 2 ∣ 3)
    ∧ ((∃ e, prepareDataLoaderCheck 3 2 true = .error e)
      ↔ true = true ∧ ¬ 2 ∣ 3)
    ∧ (¬ (true = true ∧ ¬ 2 ∣ 3) →
        initBatchSamplerShard 3 false 2 0 true = .ok ⟨2, 0, true, 3, false⟩) :=
  C8_config_error 2 3 0 false true (by decide)

/-- C9: with a single worker `prepare_data_loader` leaves the upstream batch
sampler in place, and the resulting `DataLoaderShard` stream (no device
configured) yields exactly the unsharded upstream sequence. -/
theorem C9_single_worker (bs pi : Nat) (split drop : Bool)
    (sendToDevice : List Nat → List Nat) (batches : List (List Nat)) :
    preparedBatchSource 1 bs pi split drop batches = batches
    ∧ dataLoaderShardStream sendToDevice none
        (preparedBatchSource 1 bs pi split drop batches) = batches := by
  constructor
  · rfl
  · simp [preparedBatchSource, dataLoaderShardStream]

/-- C10: an empty upstream pass yields nothing in either mode and in the
composed source: the wraparound branches are guarded by
`len(initial_data) > 0`, which fails when the loop never ran, so no undefined
loop variable is read and no empty buffer is tiled. -/
theorem C10_empty_pass (np bs pi : Nat) (drop split : Bool) :
    iterWithNoSplit np bs pi drop [] = []
    ∧ iterWithSplit np bs pi drop [] = []
    ∧ iterShard np bs pi split drop [] = []
    ∧ preparedBatchSource np bs pi split drop [] = [] := by
  refine ⟨rfl, rfl, ?_, ?_⟩
  · cases split <;> rfl
  · by_cases h : np = 1
    · simp [preparedBatchSource, h]
    · cases split <;> simp [preparedBatchSource, h, iterShard, iterWithSplit, iterWithNoSplit]

/-! ## Claim theorems: the whole-batch round robin and the wraparound -/

/-- C1: in `WholeBatch` mode batches are assigned round-robin by pass
position — batch `p` to worker `p mod worker_count`.  Over any canonical pass
(complete all-full groups `C` followed by a residue `P` that cannot complete a
full group) the `for` loop yields exactly the round-robin selection of
`C.flatten` and only holds (in `batch_to_yield`) the worker's batch of the
residue, so an assigned batch is yielded only once the last batch of its group
has arrived full; a pass of complete full groups yields exactly the
round-robin selection; and on the two-batch example worker 0 yields
`[[0,1,2,3]]` and worker 1 yields `[[4,5,6,7]]`. -/
theorem C1_whole_batch_round_robin (np bs pi : Nat) (d : Bool)
    (C : List (List (List Nat))) (P : List (List Nat))
    (hpi : pi < np)
    (hC : ∀ c ∈ C, c.length = np ∧ ∀ b ∈ c, b.length = bs)
    (hPlen : P.length ≤ np)
    (hPfull : ∀ t, t + 1 < P.length → (P.getD t []).length = bs)
    (hPlast : P.length = np → (P.getLastD []).length ≠ bs) :
    ((noSplitLoop np bs pi d 0 ⟨[], [], []⟩ (C.flatten ++ P)).yields
        = roundRobinSelect np pi 0 C.flatten
      ∧ (noSplitLoop np bs pi d 0 ⟨[], [], []⟩ (C.flatten ++ P)).batchToYield
        = (if pi < P.length then P.getD pi [] else []))
    ∧ (P = [] → iterWithNoSplit np bs pi d (C.flatten ++ P)
        = roundRobinSelect np pi 0 (C.flatten ++ P))
    ∧ iterWithNoSplit 2 4 0 d [[0,1,2,3],[4,5,6,7]] = [[0,1,2,3]]
    ∧ iterWithNoSplit 2 4 1 d [[0,1,2,3],[4,5,6,7]] = [[4,5,6,7]] := by
  have hnp : 0 < np := by omega
  have hCgrp : ∀ c ∈ C, c.length = np := fun c hc => (hC c hc).1
  have hsel := roundRobinSelect_groups np pi hnp hpi C hCgrp 0 (Nat.zero_mod np)
  have hmaster := noSplitLoop_groups np bs pi d hnp hpi C P 0 ⟨[], [], []⟩ rfl hC hPlen
    hPfull hPlast rfl
  refine ⟨⟨?_, ?_⟩, ?_, ?_, ?_⟩
  · rw [hmaster]
    show ([] : List (List Nat)) ++ (C.map fun c => c.getD pi []) = _
    rw [List.nil_append, hsel]
  · rw [hmaster]
  · intro hPnil
    subst hPnil
    rw [List.append_nil, iterWithNoSplit_full_pass np bs pi d C hnp hpi hC, hsel]
  · cases d <;> decide
  · cases d <;> decide

/-- Witness for C1 at a concrete input. -/
theorem C1_whole_batch_round_robin_witness :
    ((noSplitLoop 2 2 0 false 0 ⟨[], [], []⟩ ([[[0,1],[2,3]]].flatten ++ [[4]])).yields
        = roundRobinSelect 2 0 0 [[[0,1],[2,3]]].flatten
      ∧ (noSplitLoop 2 2 0 false 0 ⟨[], [], []⟩ ([[[0,1],[2,3]]].flatten ++ [[4]])).batchToYield
        = (if 0 < ([[4]] : List (List Nat)).length then ([[4]] : List (List Nat)).getD 0 [] else []))
    ∧ (([[4]] : List (List Nat)) = [] →
        iterWithNoSplit 2 2 0 false ([[[0,1],[2,3]]].flatten ++ [[4]])
          = roundRobinSelect 2 0 0 ([[[0,1],[2,3]]].flatten ++ [[4]]))
    ∧ iterWithNoSplit 2 4 0 false [[0,1,2,3],[4,5,6,7]] = [[0,1,2,3]]
    ∧ iterWithNoSplit 2 4 1 false [[0,1,2,3],[4,5,6,7]] = [[4,5,6,7]] :=
  C1_whole_batch_round_robin 2 2 0 false [[[0,1],[2,3]]] [[4]] (by decide) (by decide)
    (by decide) (fun t ht => by simp at ht) (by decide)

/-- C2 counterexample: in scenario C the claim says the second batches are
rebuilt from the cycled indices `[0,1,2,3,4,5,6,7]`, but worker 0's second
batch is `[8,9,0,1]` — it starts with the short batch's own indices 8 and 9,
which are not among the cycled buffer indices. -/
theorem C2_wraparound_counterexample :
    ¬ ∀ x ∈ (iterWithNoSplit 2 4 0 false [[0,1,2,3],[4,5,6,7],[8,9]]).getD 1 [],
        x ∈ ([0,1,2,3,4,5,6,7] : List Nat) := by
  decide

/-- C2 (amended): with `drop_last` true no batch of a group ended by a short
batch is yielded and iteration ends after the complete groups; with
`drop_last` false the wraparound completes the leftover short batch with
buffer elements first (so the first rebuilt batch starts with the short
batch's own indices) and then re-chunks the cycled buffer round-robin: in
scenario C worker 0 yields `[[0,1,2,3],[8,9,0,1]]` and worker 1 yields
`[[4,5,6,7],[2,3,4,5]]`, both two batches of size 4. -/
theorem C2_wraparound_amended (np bs pi : Nat)
    (C : List (List (List Nat))) (P : List (List Nat))
    (hpi : pi < np)
    (hC : ∀ c ∈ C, c.length = np ∧ ∀ b ∈ c, b.length = bs)
    (hPlen : P.length ≤ np)
    (hPfull : ∀ t, t + 1 < P.length → (P.getD t []).length = bs)
    (hPlast : P.length = np → (P.getLastD []).length ≠ bs) :
    iterWithNoSplit np bs pi true (C.flatten ++ P) = C.map (fun c => c.getD pi [])
    ∧ iterWithNoSplit 2 4 0 false [[0,1,2,3],[4,5,6,7],[8,9]] = [[0,1,2,3],[8,9,0,1]]
    ∧ iterWithNoSplit 2 4 1 false [[0,1,2,3],[4,5,6,7],[8,9]] = [[4,5,6,7],[2,3,4,5]] :=
  ⟨iterWithNoSplit_true_count np bs pi C P hpi hC hPlen hPfull hPlast,
    by decide, by decide⟩

/-- Witness for C2's amended theorem at a concrete input (scenario D). -/
theorem C2_wraparound_amended_witness :
    iterWithNoSplit 2 4 0 true ([[[0,1,2,3],[4,5,6,7]]].flatten ++ [[8,9]])
      = [[[0,1,2,3],[4,5,6,7]]].map (fun c => c.getD 0 [])
    ∧ iterWithNoSplit 2 4 0 false [[0,1,2,3],[4,5,6,7],[8,9]] = [[0,1,2,3],[8,9,0,1]]
    ∧ iterWithNoSplit 2 4 1 false [[0,1,2,3],[4,5,6,7],[8,9]] = [[4,5,6,7],[2,3,4,5]] :=
  C2_wraparound_amended 2 4 0 [[[0,1,2,3],[4,5,6,7]]] [[8,9]] (by decide) (by decide)
    (by decide) (fun t ht => by simp at ht) (by decide)

/-- C5 counterexample: with `drop_last` true the claimed sum `L - L mod
worker_count` fails in `SplitWithinBatch` mode (two full upstream batches,
two workers: the sum of yielded counts is 4, not 2), and in `WholeBatch` mode
when a short final batch ends a group (upstream of length 4 whose last batch
is short: the sum is 2, not 4). -/
theorem C5_sum_counterexample :
    ((List.range 2).map fun i => (iterWithSplit 2 2 i true [[0,1],[2,3]]).length).sum
      ≠ 2 - 2 % 2
    ∧ ((List.range 2).map fun i =>
        (iterWithNoSplit 2 2 i true [[0,1],[2,3],[4,5],[6]]).length).sum
      ≠ 4 - 4 % 2 := by
  decide

/-- C5 (amended): with `drop_last` false every worker yields the same
`__len__` number of batches (all of size `batch_size` in `WholeBatch` mode,
`batch_size / worker_count` in `SplitWithinBatch` mode), so the sum over
workers is an exact multiple of `worker_count`.  With `drop_last` true the
sum equals `L - L mod worker_count` in `WholeBatch` mode provided the residue
is shorter than a group, and equals `worker_count * L` in `SplitWithinBatch`
mode on an all-full pass. -/
theorem C5_batch_counts (np bs pi : Nat)
    (C : List (List (List Nat))) (P G F : List (List Nat)) (lastB : List Nat)
    (hpi : pi < np) (hbs : 1 ≤ bs) (hdvd : np ∣ bs)
    (hC : ∀ c ∈ C, c.length = np ∧ ∀ b ∈ c, b.length = bs)
    (hPlen : P.length ≤ np)
    (hPfull : ∀ t, t + 1 < P.length → (P.getD t []).length = bs)
    (hPne : P ≠ [] → 1 ≤ (P.getLastD []).length)
    (hPle : P ≠ [] → (P.getLastD []).length ≤ bs)
    (hPlast : P.length = np → (P.getLastD []).length < bs)
    (hG : ∀ b ∈ G, b.length = bs)
    (hF : ∀ b ∈ F, b.length = bs)
    (hlast : lastB.length < bs) (hlastpos : 0 < lastB.length) :
    ((iterWithNoSplit np bs pi false (C.flatten ++ P)).length
        = lenBatchSamplerShard np (C.flatten ++ P).length false
      ∧ ∀ y ∈ iterWithNoSplit np bs pi false (C.flatten ++ P), y.length = bs)
    ∧ ((List.range np).map fun i =>
          (iterWithNoSplit np bs i false (C.flatten ++ P)).length).sum
        = np * lenBatchSamplerShard np (C.flatten ++ P).length false
    ∧ (P.length < np →
        ((List.range np).map fun i =>
            (iterWithNoSplit np bs i true (C.flatten ++ P)).length).sum
          = (C.flatten ++ P).length - (C.flatten ++ P).length % np)
    ∧ (∀ d : Bool, (iterWithSplit np bs pi d G).length = G.length
        ∧ ∀ y ∈ iterWithSplit np bs pi d G, y.length = bs / np)
    ∧ (∀ d : Bool,
        ((List.range np).map fun i => (iterWithSplit np bs i d G).length).sum = np * G.length)
    ∧ ((iterWithSplit np bs pi false (F ++ [lastB])).length = F.length + 1
        ∧ ∀ y ∈ iterWithSplit np bs pi false (F ++ [lastB]), y.length = bs / np)
    ∧ ((List.range np).map fun i =>
          (iterWithSplit np bs i false (F ++ [lastB])).length).sum = np * (F.length + 1) := by
  have hnp : 0 < np := by omega
  have hne : 0 < ((F ++ [lastB]).headD []).length := by
    rcases F with _ | ⟨f, F'⟩
    · simpa using hlastpos
    · have := hF f (List.mem_cons_self f F')
      simp only [List.cons_append, List.headD_cons]
      omega
  refine ⟨iterWithNoSplit_false_count np bs pi C P hpi hbs hC hPlen hPfull hPne hPle hPlast,
    ?_, ?_, ?_, ?_, ?_, ?_⟩
  · exact sum_range_const np _ _ fun i hi =>
      (iterWithNoSplit_false_count np bs i C P hi hbs hC hPlen hPfull hPne hPle hPlast).1
  · intro hplt
    have hcount : ∀ i, i < np → (iterWithNoSplit np bs i true (C.flatten ++ P)).length
        = C.length := by
      intro i hi
      rw [iterWithNoSplit_true_count np bs i C P hi hC hPlen hPfull
        (fun h => Nat.ne_of_lt (hPlast h)), List.length_map]
    rw [sum_range_const np C.length _ hcount]
    have hL : (C.flatten ++ P).length = C.length * np + P.length := by
      rw [List.length_append, flatten_groups_length np C (fun c hc => (hC c hc).1)]
    have hmod : (C.flatten ++ P).length % np = P.length := by
      rw [hL, Nat.mul_comm C.length np, Nat.mul_add_mod, Nat.mod_eq_of_lt hplt]
    rw [hmod, hL, Nat.mul_comm np C.length]
    omega
  · intro d
    rw [iterWithSplit_full_eq np bs pi d G hG]
    refine ⟨List.length_map G _, ?_⟩
    intro y hy
    rcases List.mem_map.mp hy with ⟨b, hb, rfl⟩
    exact pySlice_full_length np bs pi b (by rw [hG b hb]) hdvd hpi
  · intro d
    exact sum_range_const np G.length _ fun i hi => by
      rw [iterWithSplit_full_eq np bs i d G hG, List.length_map]
  · rw [iterWithSplit_short_eq np bs pi F lastB hF hlast hne]
    constructor
    · rw [List.length_append, List.length_map, List.length_singleton]
    · intro y hy
      rcases List.mem_append.mp hy with hy | hy
      · rcases List.mem_map.mp hy with ⟨b, hb, rfl⟩
        exact pySlice_full_length np bs pi b (by rw [hF b hb]) hdvd hpi
      · rcases List.mem_singleton.mp hy with rfl
        exact (shortTail_slice_length np bs pi F lastB hpi hdvd hne).2
  · refine sum_range_const np (F.length + 1) _ fun i hi => ?_
    rw [iterWithSplit_short_eq np bs i F lastB hF hlast hne, List.length_append,
      List.length_map, List.length_singleton]

/-- Witness for C5's amended theorem at a concrete input. -/
theorem C5_batch_counts_witness :
    ((iterWithNoSplit 2 2 0 false ([[[0,1],[2,3]]].flatten ++ [[4]])).length
        = lenBatchSamplerShard 2 ([[[0,1],[2,3]]].flatten ++ [[4]] : List (List Nat)).length false
      ∧ ∀ y ∈ iterWithNoSplit 2 2 0 false ([[[0,1],[2,3]]].flatten ++ [[4]]), y.length = 2)
    ∧ ((List.range 2).map fun i =>
          (iterWithNoSplit 2 2 i false ([[[0,1],[2,3]]].flatten ++ [[4]])).length).sum
        = 2 * lenBatchSamplerShard 2 ([[[0,1],[2,3]]].flatten ++ [[4]] : List (List Nat)).length false
    ∧ (([[4]] : List (List Nat)).length < 2 →
        ((List.range 2).map fun i =>
            (iterWithNoSplit 2 2 i true ([[[0,1],[2,3]]].flatten ++ [[4]])).length).sum
          = ([[[0,1],[2,3]]].flatten ++ [[4]] : List (List Nat)).length
            - ([[[0,1],[2,3]]].flatten ++ [[4]] : List (List Nat)).length % 2)
    ∧ (∀ d : Bool, (iterWithSplit 2 2 0 d [[0,1],[2,3]]).length
          = ([[0,1],[2,3]] : List (List Nat)).length
        ∧ ∀ y ∈ iterWithSplit 2 2 0 d [[0,1],[2,3]], y.length = 2 / 2)
    ∧ (∀ d : Bool,
        ((List.range 2).map fun i => (iterWithSplit 2 2 i d [[0,1],[2,3]]).length).sum
          = 2 * ([[0,1],[2,3]] : List (List Nat)).length)
    ∧ ((iterWithSplit 2 2 0 false ([[0,1]] ++ [[4]])).length
          = ([[0,1]] : List (List Nat)).length + 1
        ∧ ∀ y ∈ iterWithSplit 2 2 0 false ([[0,1]] ++ [[4]]), y.length = 2 / 2)
    ∧ ((List.range 2).map fun i =>
          (iterWithSplit 2 2 i false ([[0,1]] ++ [[4]])).length).sum
        = 2 * (([[0,1]] : List (List Nat)).length + 1) :=
  C5_batch_counts 2 2 0 [[[0,1],[2,3]]] [[4]] [[0,1],[2,3]] [[0,1]] [4]
    (by decide) (by decide) (by decide) (by decide) (by decide)
    (fun t ht => by simp at ht) (fun _ => by decide) (fun _ => by decide)
    (by decide) (by decide) (by decide) (by decide) (by decide)

/-- C7 counterexample: with `split_batches` true, two processes and two full
upstream batches of size 2, `__len__` reports 1 but the iterator yields 2
batches per worker. -/
theorem C7_len_counterexample :
    lenBatchSamplerShard 2 2 false ≠ (iterWithSplit 2 2 0 false [[0,1],[2,3]]).length := by
  decide

/-- C7 (amended): `__len__` equals the number of yielded batches in
`WholeBatch` mode — with `drop_last` false on any canonical pass, and with
`drop_last` true when the residue is shorter than a group — but in
`SplitWithinBatch` mode the iterator yields one slice per upstream batch
(plus one synthetic slice when `drop_last` is false and the final batch is
short), which differs from `__len__` whenever `worker_count > 1`. -/
theorem C7_len_amended (np bs pi : Nat)
    (C : List (List (List Nat))) (P G F : List (List Nat)) (lastB : List Nat)
    (hpi : pi < np) (hbs : 1 ≤ bs)
    (hC : ∀ c ∈ C, c.length = np ∧ ∀ b ∈ c, b.length = bs)
    (hPlen : P.length ≤ np)
    (hPfull : ∀ t, t + 1 < P.length → (P.getD t []).length = bs)
    (hPne : P ≠ [] → 1 ≤ (P.getLastD []).length)
    (hPle : P ≠ [] → (P.getLastD []).length ≤ bs)
    (hPlast : P.length = np → (P.getLastD []).length < bs)
    (hG : ∀ b ∈ G, b.length = bs)
    (hF : ∀ b ∈ F, b.length = bs)
    (hlast : lastB.length < bs) (hlastpos : 0 < lastB.length) :
    (iterWithNoSplit np bs pi false (C.flatten ++ P)).length
      = lenBatchSamplerShard np (C.flatten ++ P).length false
    ∧ (P.length < np →
        (iterWithNoSplit np bs pi true (C.flatten ++ P)).length
          = lenBatchSamplerShard np (C.flatten ++ P).length true)
    ∧ (∀ d : Bool, (iterWithSplit np bs pi d G).length = G.length)
    ∧ (iterWithSplit np bs pi false (F ++ [lastB])).length = F.length + 1 := by
  have hnp : 0 < np := by omega
  have hne : 0 < ((F ++ [lastB]).headD []).length := by
    rcases F with _ | ⟨f, F'⟩
    · simpa using hlastpos
    · have := hF f (List.mem_cons_self f F')
      simp only [List.cons_append, List.headD_cons]
      omega
  refine ⟨(iterWithNoSplit_false_count np bs pi C P hpi hbs hC hPlen hPfull hPne hPle
    hPlast).1, ?_, ?_, ?_⟩
  · intro hplt
    rw [iterWithNoSplit_true_count np bs pi C P hpi hC hPlen hPfull
      (fun h => Nat.ne_of_lt (hPlast h)), List.length_map]
    have hL : (C.flatten ++ P).length = C.length * np + P.length := by
      rw [List.length_append, flatten_groups_length np C (fun c hc => (hC c hc).1)]
    rw [hL, lenShard_true np C.length P.length hnp hplt]
  · intro d
    rw [iterWithSplit_full_eq np bs pi d G hG, List.length_map]
  · rw [iterWithSplit_short_eq np bs pi F lastB hF hlast hne, List.length_append,
      List.length_map, List.length_singleton]

/-- Witness for C7's amended theorem at a concrete input. -/
theorem C7_len_amended_witness :
    (iterWithNoSplit 2 2 0 false ([[[0,1],[2,3]]].flatten ++ [[4]])).length
      = lenBatchSamplerShard 2 ([[[0,1],[2,3]]].flatten ++ [[4]] : List (List Nat)).length false
    ∧ (([[4]] : List (List Nat)).length < 2 →
        (iterWithNoSplit 2 2 0 true ([[[0,1],[2,3]]].flatten ++ [[4]])).length
          = lenBatchSamplerShard 2
              ([[[0,1],[2,3]]].flatten ++ [[4]] : List (List Nat)).length true)
    ∧ (∀ d : Bool, (iterWithSplit 2 2 0 d [[0,1],[2,3]]).length
        = ([[0,1],[2,3]] : List (List Nat)).length)
    ∧ (iterWithSplit 2 2 0 false ([[0,1]] ++ [[4]])).length
        = ([[0,1]] : List (List Nat)).length + 1 :=
  C7_len_amended 2 2 0 [[[0,1],[2,3]]] [[4]] [[0,1],[2,3]] [[0,1]] [4]
    (by decide) (by decide) (by decide) (by decide)
    (fun t ht => by simp at ht) (fun _ => by decide) (fun _ => by decide)
    (by decide) (by decide) (by decide) (by decide) (by decide)

end Accelerate
